import Mathlib

/-!
# dict.h: a Python-like ordered dictionary

A shallow embedding of `class dict` (lexicalunit/dict, `dict.h`) and of the
properties its specification states.

* a `std::string` is a `List Char`;
* the `boost::variant` of nine alternatives is the inductive `mapped_type`,
  its constructors in the order of the variant's type list;
* the `boost::multi_index_container` (a sequenced index and a hashed unique
  index on the key) is the list of its elements in sequenced order; the
  hashed index adds no state of its own, it forbids two elements with one key
  (`dict.unique_keys`);
* a reference parameter `T& value` is an argument and a component of the
  result; the constructor of the argument is the static type `T`;
* an iterator is the position it points to, counted from `begin()`;
* a `float` is its representation (`cfloat`); its conversions and formatting
  are parameters (`float_ops`), as are its comparisons (`float_order`), for
  which `float_order.ieee` gives those of the IEEE 754 single format.
-/

/-- The `std::string` of the source. -/
abbrev cstring := List Char

/-- The type `dict::key_type`. -/
abbrev key_type := cstring

/-- A C++ `float`, kept as its object representation. Copying a float copies
the representation; the conversions and the formatting of floats are
parameters (`float_ops`). -/
structure cfloat where
  bits : Nat
deriving DecidableEq

/-- The type `dict::mapped_type`: the variant `float`, `int`, `std::string`,
`std::vector<int>`, `std::vector<float>`, `std::vector<std::string>`,
`std::vector<bool>`, `recursive_wrapper<dict>`,
`recursive_wrapper<std::vector<dict>>`, in this order. A dictionary is the
list of its `(key, value)` elements in sequenced order. -/
inductive mapped_type where
  | Float (value : cfloat)
  | Int (value : Int)
  | String (value : cstring)
  | ListInt (value : List Int)
  | ListFloat (value : List cfloat)
  | ListString (value : List cstring)
  | ListBool (value : List Bool)
  | NestedDict (value : List (cstring × mapped_type))
  | ListOfNestedDict (value : List (List (cstring × mapped_type)))

instance : Inhabited mapped_type := ⟨mapped_type.Float ⟨0⟩⟩

/-- The type `dict::value_type`, a `std::pair<key_type, mapped_type>`. -/
abbrev value_type := key_type × mapped_type

/-- The class `dict`: its `storage`, in the order of the sequenced index. -/
abbrev dict := List value_type

/-- What the source takes from the C++ implementation for `float`: the
implicit conversions between `float` and `int` and
`boost::lexical_cast<std::string>(float)`. -/
structure float_ops where
  to_int : cfloat → Int
  of_int : Int → cfloat
  lexical_cast : cfloat → cstring

/-- A `float_ops` for closed examples only: the representation `n` stands for the
whole number `n`. It is not the C++ conversion (no rounding, no range, a
negative `int` goes to 0); the examples that use it convert no float. -/
def float_ops.whole : float_ops where
  to_int x := x.bits
  of_int i := ⟨i.toNat⟩
  lexical_cast x := Nat.toDigits 10 x.bits

/-- The nine kinds, the value of `mapped_type::which()`. -/
inductive kind where
  | Float | Int | String | ListInt | ListFloat | ListString | ListBool
  | NestedDict | ListOfNestedDict
deriving DecidableEq

/-- The kind a stored value holds. -/
def mapped_type.kind_of : mapped_type → kind
  | .Float _ => .Float
  | .Int _ => .Int
  | .String _ => .String
  | .ListInt _ => .ListInt
  | .ListFloat _ => .ListFloat
  | .ListString _ => .ListString
  | .ListBool _ => .ListBool
  | .NestedDict _ => .NestedDict
  | .ListOfNestedDict _ => .ListOfNestedDict

/-! ## Library functions the source calls -/

/-- The library call `boost::lexical_cast<std::string>(int)`: the decimal numeral, with a
leading minus sign for a negative number. -/
def lexical_cast_int (i : Int) : cstring :=
  if i < 0 then '-' :: Nat.toDigits 10 i.natAbs else Nat.toDigits 10 i.toNat

/-- The library call `boost::lexical_cast<std::string>(bool)`: the stream output of a
`bool`, `1` or `0`. -/
def lexical_cast_bool (b : Bool) : cstring :=
  if b then ['1'] else ['0']

/-- The library call `boost::lexical_cast<std::string>(std::string)`: the string itself. -/
def lexical_cast_string (s : cstring) : cstring := s

/-- Search of `needle` in `t`, the part of a string that starts at index `i`. -/
def find_from (needle : cstring) : cstring → Nat → Option Nat
  | [], i => if needle = [] then some i else none
  | c :: t, i => if needle <+: c :: t then some i else find_from needle t (i + 1)

/-- The member `std::string::find(needle, pos)`: the lowest index `i ≥ pos` at which
`needle` occurs in `s`; `none` is `npos`. -/
def cstring.find (s needle : cstring) (pos : Nat) : Option Nat :=
  if s.length < pos then none else find_from needle (s.drop pos) pos

/-- The member `std::string::substr(pos, count)`: the characters `[pos, pos + count)`
cut at the end of `s`; `none` is the exception `std::out_of_range`, thrown
when `pos > size()`. -/
def cstring.substr (s : cstring) (pos count : Nat) : Option cstring :=
  if s.length < pos then none else some ((s.drop pos).take count)

/-! ## `details::get_visitor<std::string>` and `dict::str` -/

/-- The single quote character. -/
def quote_char : Char := Char.ofNat 39

/-- The loop of `get_visitor<std::string>::operator()` over a vector whose
elements `lexical_cast` formats by `cast`: each element, then `", "` unless
`std::distance(i, end) == 1`. -/
def details.vector_loop {α : Type} (cast : α → cstring) : List α → cstring
  | [] => []
  | x :: rest =>
    cast x ++ (if rest.length + 1 ≠ 1 then [',', ' '] else []) ++ details.vector_loop cast rest

mutual
/-- The characters `get_visitor<std::string>::operator()` appends to `rvalue`
for a stored `value`: `lexical_cast<std::string>(value)` for a value that is
not a vector, the bracketed loop for a vector. `lexical_cast` of a `dict`
streams it with `operator<<`, which writes `str()`. -/
def details.appended (fo : float_ops) : mapped_type → cstring
  | .Float x => fo.lexical_cast x
  | .Int i => lexical_cast_int i
  | .String s => lexical_cast_string s
  | .ListInt v => ['['] ++ details.vector_loop lexical_cast_int v ++ [']']
  | .ListFloat v => ['['] ++ details.vector_loop fo.lexical_cast v ++ [']']
  | .ListString v => ['['] ++ details.vector_loop lexical_cast_string v ++ [']']
  | .ListBool v => ['['] ++ details.vector_loop lexical_cast_bool v ++ [']']
  | .NestedDict d => [Char.ofNat 123] ++ dict.str_loop fo d ++ [Char.ofNat 125]
  | .ListOfNestedDict v => ['['] ++ details.dict_vector_loop fo v ++ [']']
/-- The loop of `dict::str` over the elements that remain: for each element a
fresh `temp` filled by `get_visitor<std::string>`, the quoted key, `": "` and
`temp`, then `", "` unless `std::distance(i, end) == 1`. -/
def dict.str_loop (fo : float_ops) : List (cstring × mapped_type) → cstring
  | [] => []
  | (first, second) :: rest =>
    [quote_char] ++ first ++ [quote_char, ':', ' '] ++ details.appended fo second
      ++ (if rest.length + 1 ≠ 1 then [',', ' '] else []) ++ dict.str_loop fo rest
/-- The vector loop of `get_visitor<std::string>` for a `std::vector<dict>`:
`details.vector_loop` with `cast` the `str()` of an element. -/
def details.dict_vector_loop (fo : float_ops) : List (List (cstring × mapped_type)) → cstring
  | [] => []
  | d :: rest =>
    ([Char.ofNat 123] ++ dict.str_loop fo d ++ [Char.ofNat 125])
      ++ (if rest.length + 1 ≠ 1 then [',', ' '] else []) ++ details.dict_vector_loop fo rest
end

/-- The method `dict::str()`: `"{"`, the loop over all elements, `"}"`. -/
def dict.str (fo : float_ops) (d : dict) : cstring :=
  [Char.ofNat 123] ++ dict.str_loop fo d ++ [Char.ofNat 125]

/-! ## The storage: `count`, `size`, `add` -/

/-- The constructor `dict()`: the empty dictionary. -/
def dict.empty : dict := []

/-- The method `dict::count(key)`, `key_index().count(key)`: the number of elements
whose key is `key`. -/
def dict.count (d : dict) (key : key_type) : Nat :=
  d.countP (fun e => e.1 == key)

/-- The method `dict::size()`, `storage.size()`. -/
def dict.size (d : dict) : Nat := d.length

/-- The keys in iteration order, `i->first` for `i` from `begin()` to `end()`. -/
def dict.keys (d : dict) : List key_type := d.map Prod.fst

/-- The invariant of the hashed unique index: no two elements have one key. -/
def dict.unique_keys (d : dict) : Prop := (dict.keys d).Nodup

instance dict.decidable_unique_keys (d : dict) : Decidable (dict.unique_keys d) :=
  inferInstanceAs (Decidable (dict.keys d).Nodup)

/-- The value `key_index().find(key)->second`: the value of the element whose key is
`key`; `none` is `find` returning `end()`. -/
def dict.find_second : dict → key_type → Option mapped_type
  | [], _ => none
  | e :: rest, key => if e.1 = key then some e.2 else dict.find_second rest key

/-- The call `key_index().replace(key_index().find(key), x)`: the element found
by `key` is replaced by `x`, at its position in the sequenced index. -/
def dict.replace : dict → key_type → value_type → dict
  | [], _, _ => []
  | e :: rest, key, x => if e.1 = key then x :: rest else e :: dict.replace rest key x

/-- The method `dict::add_impl(key, value, back)` for a directly supported type. -/
def dict.add_impl (d : dict) (key : key_type) (value : mapped_type) (back : Bool) : dict :=
  if dict.count d key ≠ 0 then
    dict.replace d key (key, value)
  else if back then
    d ++ [(key, value)]
  else
    (key, value) :: d

/-- The method `dict::add(key, value)`. -/
def dict.add (d : dict) (key : key_type) (value : mapped_type) : dict :=
  dict.add_impl d key value true

/-- The method `dict::add_front(key, value)`. -/
def dict.add_front (d : dict) (key : key_type) (value : mapped_type) : dict :=
  dict.add_impl d key value false

/-- The method `dict::add_back(key, value)`: same as `add`. -/
def dict.add_back (d : dict) (key : key_type) (value : mapped_type) : dict :=
  dict.add d key value

/-! ## `details::get_visitor` and `dict::get` -/

/-- The visitor `details::get_visitor<T>::operator()` on the stored `value`, for `T` the
kind of `rvalue`: the result and `rvalue` afterwards. For `T = std::string`
the specialisation appends; for the other kinds the stored value is assigned
when `boost::is_convertible<U, T>` holds (`float` and `int` convert to each
other, every other type only to itself) and nothing is done otherwise. -/
def details.get_visitor (fo : float_ops) (rvalue value : mapped_type) : Bool × mapped_type :=
  match rvalue, value with
  | .String s, v => (true, .String (s ++ details.appended fo v))
  | .Float _, .Float x => (true, .Float x)
  | .Float _, .Int i => (true, .Float (fo.of_int i))
  | .Int _, .Float x => (true, .Int (fo.to_int x))
  | .Int _, .Int i => (true, .Int i)
  | .ListInt _, .ListInt v => (true, .ListInt v)
  | .ListFloat _, .ListFloat v => (true, .ListFloat v)
  | .ListString _, .ListString v => (true, .ListString v)
  | .ListBool _, .ListBool v => (true, .ListBool v)
  | .NestedDict _, .NestedDict d => (true, .NestedDict d)
  | .ListOfNestedDict _, .ListOfNestedDict v => (true, .ListOfNestedDict v)
  | r, _ => (false, r)

/-- The method `dict::get(key, value)`: the returned `bool` and `value` afterwards. -/
def dict.get (fo : float_ops) (d : dict) (key : key_type) (value : mapped_type) :
    Bool × mapped_type :=
  if dict.count d key = 0 then (false, value)
  else
    match dict.find_second d key with
    | some second => details.get_visitor fo value second
    | none => (false, value)

/-- The method `dict::get(key, value)` for `T = dict`, the overload the walk of
`get_recursive` and `dict get(key)` call. -/
def dict.get_dict (fo : float_ops) (d : dict) (key : key_type) (value : dict) : Bool × dict :=
  match dict.get fo d key (.NestedDict value) with
  | (b, .NestedDict t) => (b, t)
  | (b, _) => (b, value)

/-! ## `details::size_visitor` and `dict::size_recursive` -/

mutual
/-- The visitor `details::size_visitor::operator()`: what one stored value adds to
`count`. The overload for `dict` adds `1 + value.size_recursive()`, the
template, taken by the eight other alternatives, adds one. -/
def details.size_visitor : mapped_type → Nat
  | .NestedDict d => 1 + dict.size_recursive d
  | _ => 1
/-- The method `dict::size_recursive()`: the visitor applied to every element, from a
`count` of zero. -/
def dict.size_recursive : List (cstring × mapped_type) → Nat
  | [] => 0
  | (_, second) :: rest => details.size_visitor second + dict.size_recursive rest
end

/-! ## `dict::get_recursive` -/

/-- How a call can end without returning: `substr` throws `std::out_of_range`,
the walk over the keys dereferences `keys.end()`, or the model's bound on the
number of iterations is used up. -/
inductive fault where
  | out_of_range
  | past_the_end
  | out_of_fuel
deriving DecidableEq

/-- The delimiter `"::"`. -/
def delimiter : cstring := [':', ':']

/-- The `while(pos != std::string::npos)` loop of `get_recursive`, from the
values of `offset`, `pos` and `keys` at the loop test. The first argument
bounds the number of iterations. -/
def dict.split_loop (key : cstring) :
    Nat → Nat → Option Nat → List cstring → Except fault (List cstring)
  | _, _, none, keys => .ok keys
  | 0, _, some _, _ => .error .out_of_fuel
  | fuel + 1, offset, some pos, keys =>
    match cstring.substr key offset pos with
    | none => .error .out_of_range
    | some segment =>
      dict.split_loop key fuel (offset + pos + 2) (cstring.find key delimiter (offset + pos))
        (keys ++ [segment])

/-- The vector `keys` of `get_recursive` after the splitting loop. The loop is
given `key.size() + 1` iterations, which it never uses up
(`dict.split_total`). -/
def dict.split (key : cstring) : Except fault (List cstring) :=
  dict.split_loop key (key.length + 1) 0 (cstring.find key delimiter 0) []

/-- The `for` loop of `get_recursive`, `temp.get(*i, temp)` for each key from
`i` up to `keys.end() - 1`; `none` is its `return false`. -/
def dict.walk (fo : float_ops) (temp : dict) : List key_type → Option dict
  | [] => some temp
  | k :: ks =>
    match dict.get_dict fo temp k temp with
    | (true, t) => dict.walk fo t ks
    | (false, _) => none

/-- The method `dict::get_recursive(key, value)`: the returned `bool` and `value`
afterwards, or the fault on which the call ends. -/
def dict.get_recursive (fo : float_ops) (d : dict) (key : key_type) (value : mapped_type) :
    Except fault (Bool × mapped_type) :=
  match dict.split key with
  | .error e => .error e
  | .ok [] => .ok (dict.get fo d key value)
  | .ok (first :: rest) =>
    match dict.get_dict fo d first dict.empty with
    | (false, _) => .ok (false, value)
    | (true, temp) =>
      match rest.getLast? with
      | none => .error .past_the_end
      | some back =>
        match dict.walk fo temp rest.dropLast with
        | none => .ok (false, value)
        | some inner => .ok (dict.get fo inner back value)

/-! ## Sequences of calls, for the properties that speak of them -/

/-- One call of `add`, `add_back` or `add_front`. -/
inductive add_call where
  | add (key : key_type) (value : mapped_type)
  | add_back (key : key_type) (value : mapped_type)
  | add_front (key : key_type) (value : mapped_type)

/-- The key a call adds. -/
def add_call.key : add_call → key_type
  | .add k _ => k
  | .add_back k _ => k
  | .add_front k _ => k

/-- The dictionary after one call. -/
def add_call.apply (d : dict) : add_call → dict
  | .add k v => dict.add d k v
  | .add_back k v => dict.add_back d k v
  | .add_front k v => dict.add_front d k v

/-- The dictionary after a sequence of calls, the first call first. -/
def dict.after_calls (d : dict) (calls : List add_call) : dict :=
  calls.foldl add_call.apply d


/-! ## The specification's conversion table -/

/-- The conversion table in the words of the specification: a `String` target
accepts every stored kind, an `Int` or `Float` target accepts the stored
kinds `Float` and `Int`, every other target accepts its own kind only. -/
def kind.accepts (target stored : kind) : Bool :=
  match target with
  | .String => true
  | .Int => decide (stored = .Float ∨ stored = .Int)
  | .Float => decide (stored = .Float ∨ stored = .Int)
  | .ListInt => decide (stored = .ListInt)
  | .ListFloat => decide (stored = .ListFloat)
  | .ListString => decide (stored = .ListString)
  | .ListBool => decide (stored = .ListBool)
  | .NestedDict => decide (stored = .NestedDict)
  | .ListOfNestedDict => decide (stored = .ListOfNestedDict)

/-- The text of one element in the rendering of the specification: the key
between single quotes, a colon, a space, and the rendered value. -/
def dict.entry_text (fo : float_ops) (e : value_type) : cstring :=
  [quote_char] ++ e.1 ++ [quote_char] ++ [':'] ++ [' '] ++ details.appended fo e.2

/-! ## The specification's count of elements -/

mutual
/-- The number of elements of all the dictionaries inside a value: the nested
dictionary of a `NestedDict`, the element dictionaries of a
`ListOfNestedDict`, and the dictionaries nested inside those. -/
def mapped_type.entries_inside : mapped_type → Nat
  | .NestedDict d => dict.total_entries d
  | .ListOfNestedDict v => dict.total_entries_of_list v
  | _ => 0
/-- The total number of elements in a dictionary and in all dictionaries
nested inside it, in the words of the specification. -/
def dict.total_entries : List (cstring × mapped_type) → Nat
  | [] => 0
  | (_, second) :: rest => 1 + mapped_type.entries_inside second + dict.total_entries rest
/-- The sum of `dict.total_entries` over a list of dictionaries. -/
def dict.total_entries_of_list : List (List (cstring × mapped_type)) → Nat
  | [] => 0
  | d :: rest => dict.total_entries d + dict.total_entries_of_list rest
end

mutual
/-- A value that is not a `ListOfNestedDict` and holds none at any depth. -/
def mapped_type.list_free : mapped_type → Bool
  | .NestedDict d => dict.list_free d
  | .ListOfNestedDict _ => false
  | _ => true
/-- A dictionary that holds no `ListOfNestedDict` element, at any depth. -/
def dict.list_free : List (cstring × mapped_type) → Bool
  | [] => true
  | (_, second) :: rest => mapped_type.list_free second && dict.list_free rest
end

/-- What one element adds to `size_recursive` in the words of the
specification: a `NestedDict` adds `1 + nested.size_recursive()`, an element
of a kind that is not a dictionary adds one. -/
def dict.contribution (e : value_type) : Nat :=
  match e.2 with
  | .NestedDict nested => 1 + dict.size_recursive nested
  | _ => 1

/-! ## The chained lookup of the specification -/

/-- The chained lookup of three keys in the words of the specification: get
`k1` as a nested dictionary from `d`, get `k2` as a nested dictionary from
that, then the typed `get(k3, out)` on the result, with false, and `out` as
it was, as soon as one step fails. -/
def dict.chained_get (fo : float_ops) (d : dict) (k1 k2 k3 : key_type) (out : mapped_type) :
    Bool × mapped_type :=
  match dict.get_dict fo d k1 dict.empty with
  | (false, _) => (false, out)
  | (true, d1) =>
    match dict.get_dict fo d1 k2 dict.empty with
    | (false, _) => (false, out)
    | (true, d2) => dict.get fo d2 k3 out

/-! ## `dict::erase` and `dict::find` -/

/-- The method `dict::erase(key)`, `key_index().erase(key)`: the elements whose key is
`key` are erased, the other elements stay in their order; the number of
erased elements is returned. -/
def dict.erase (d : dict) (key : key_type) : Nat × dict :=
  (dict.count d key, d.filter (fun e => !(e.1 == key)))

/-- The method `dict::find(key)`, `std::find_if` over the sequenced index: the position
of the first element whose key is `key`, counted from `begin()`; the
position `size()` is `end()`. -/
def dict.find : dict → key_type → Nat
  | [], _ => 0
  | e :: rest, key => if e.1 = key then 0 else dict.find rest key + 1

/-! ## The type of the argument of `add` -/

/-- The C++ types of the values `main.cpp` passes to `add`. -/
inductive argument_type where
  | bool | int | long | float | double | string_literal | std_string
  | vector_int | vector_float | vector_string | vector_bool | dict | vector_dict
  | int_pointer
deriving DecidableEq

/-- The sequence `dict::types`, the alternatives of the variant in their order. -/
def dict.types : List kind :=
  [.Float, .Int, .String, .ListInt, .ListFloat, .ListString, .ListBool, .NestedDict,
    .ListOfNestedDict]

/-- The trait `boost::is_convertible<T, U>` for `U` an alternative of the variant: the
arithmetic types convert to `float` and to `int`, a string literal and a
`std::string` to `std::string`, a vector or a `dict` to its own type only,
a pointer to none of them. -/
def is_convertible (t : argument_type) (u : kind) : Bool :=
  match t, u with
  | .bool, .Float | .bool, .Int => true
  | .int, .Float | .int, .Int => true
  | .long, .Float | .long, .Int => true
  | .float, .Float | .float, .Int => true
  | .double, .Float | .double, .Int => true
  | .string_literal, .String | .std_string, .String => true
  | .vector_int, .ListInt => true
  | .vector_float, .ListFloat => true
  | .vector_string, .ListString => true
  | .vector_bool, .ListBool => true
  | .dict, .NestedDict => true
  | .vector_dict, .ListOfNestedDict => true
  | _, _ => false

/-- The test `boost::mpl::contains<dict::types, T>`: the alternative that is the type
`T` itself, if there is one. -/
def argument_type.alternative : argument_type → Option kind
  | .float => some .Float
  | .int => some .Int
  | .std_string => some .String
  | .vector_int => some .ListInt
  | .vector_float => some .ListFloat
  | .vector_string => some .ListString
  | .vector_bool => some .ListBool
  | .dict => some .NestedDict
  | .vector_dict => some .ListOfNestedDict
  | _ => none

/-- The metafunction `find_convertible<Sequence, T>`: the first type of the sequence to
which `T` is convertible; `none` is the end of the sequence. -/
def find_convertible (sequence : List kind) (t : argument_type) : Option kind :=
  sequence.find? (is_convertible t)

/-- The metafunction `has_convertible<Sequence, T>`. -/
def has_convertible (sequence : List kind) (t : argument_type) : Bool :=
  (find_convertible sequence t).isSome

/-- The trait `dict_supports<T>`: `T` is an alternative or converts to `std::string`. -/
def dict_supports (t : argument_type) : Bool :=
  t.alternative.isSome || is_convertible t .String

/-- The trait `dict_implicitly_supports<T>`. -/
def dict_implicitly_supports (t : argument_type) : Bool :=
  !dict_supports t && has_convertible dict.types t

/-- The kind under which `add_impl` stores a value of type `T`: a supported
type is passed to the variant as it is (its own alternative, `std::string`
for a string literal), an implicitly supported one is first cast to
`find_convertible<types, T>::type`; `none` is the `static_assert`. -/
def dict.add_kind (t : argument_type) : Option kind :=
  if dict_supports t then
    match t.alternative with
    | some k => some k
    | none => some .String
  else if dict_implicitly_supports t then
    find_convertible dict.types t
  else
    none

/-! ## `operator==` and `operator<`

The source compares two dictionaries by comparing their `storage`. The
comparisons of the containers are those of the libraries:
`multi_index_container` compares the sequenced indices, `operator==` by
size and `std::equal`, `operator<` by `std::lexicographical_compare`;
`std::pair` compares the key first; `boost::variant` compares `which()`
first, then the contents; `std::vector` and `std::string` compare like
the sequenced index. -/

/-- What the source takes from the C++ implementation to compare two `float`:
`operator<` and `operator==`. -/
structure float_order where
  less : cfloat → cfloat → Bool
  equal : cfloat → cfloat → Bool

/-- A representation that stands for a NaN in the IEEE 754 single format:
all exponent bits set and a fraction that is not zero. -/
def cfloat.is_nan (x : cfloat) : Bool :=
  decide (x.bits / 2 ^ 23 % 256 = 255) && decide (x.bits % 2 ^ 23 ≠ 0)

/-- The position of a representation that is not a NaN in the order of the
IEEE 754 single format: the magnitude bits, negated when the sign bit is
set (both zeros are at 0). -/
def cfloat.sort_key (x : cfloat) : Int :=
  if x.bits / 2 ^ 31 % 2 = 1 then -((x.bits % 2 ^ 31 : Nat) : Int)
  else ((x.bits % 2 ^ 31 : Nat) : Int)

/-- The comparisons of the IEEE 754 single format: a NaN is neither less than
nor equal to anything. -/
def float_order.ieee : float_order where
  less x y := !x.is_nan && !y.is_nan && decide (x.sort_key < y.sort_key)
  equal x y := !x.is_nan && !y.is_nan && decide (x.sort_key = y.sort_key)

/-- The algorithm `std::lexicographical_compare` over two ranges whose elements `less`
compares. -/
def lexicographical_compare {α : Type} (less : α → α → Bool) : List α → List α → Bool
  | x :: xs, y :: ys =>
    if less x y then true else if less y x then false else lexicographical_compare less xs ys
  | [], _ :: _ => true
  | _, [] => false

/-- The `operator==` of two sequences: the same size and `std::equal`. -/
def sequence_equal {α : Type} (equal : α → α → Bool) : List α → List α → Bool
  | x :: xs, y :: ys => equal x y && sequence_equal equal xs ys
  | [], [] => true
  | _, _ => false

/-- The `operator<` of `char`, by character code. -/
def char_less (a b : Char) : Bool := decide (a.toNat < b.toNat)

/-- The `operator<` of `std::string`. -/
def string_less (a b : cstring) : Bool := lexicographical_compare char_less a b

/-- The `operator<` of `int`. -/
def int_less (a b : Int) : Bool := decide (a < b)

/-- The `operator<` of `bool`: false is less than true. -/
def bool_less (a b : Bool) : Bool := !a && b

/-- The value of `which()` for a kind: its index in the variant's type list. -/
def kind.index : kind → Nat
  | .Float => 0
  | .Int => 1
  | .String => 2
  | .ListInt => 3
  | .ListFloat => 4
  | .ListString => 5
  | .ListBool => 6
  | .NestedDict => 7
  | .ListOfNestedDict => 8

mutual
/-- The `operator<` of the variant, both ways: `lhs < rhs` and `rhs < lhs`. Two
values of one kind compare by their contents, two values of different
kinds by `which()`. Both results are computed in one pass over `lhs`. -/
def mapped_type.less_both (fc : float_order) : mapped_type → mapped_type → Bool × Bool
  | .Float x, .Float y => (fc.less x y, fc.less y x)
  | .Int x, .Int y => (int_less x y, int_less y x)
  | .String x, .String y => (string_less x y, string_less y x)
  | .ListInt x, .ListInt y =>
    (lexicographical_compare int_less x y, lexicographical_compare int_less y x)
  | .ListFloat x, .ListFloat y =>
    (lexicographical_compare fc.less x y, lexicographical_compare fc.less y x)
  | .ListString x, .ListString y =>
    (lexicographical_compare string_less x y, lexicographical_compare string_less y x)
  | .ListBool x, .ListBool y =>
    (lexicographical_compare bool_less x y, lexicographical_compare bool_less y x)
  | .NestedDict x, .NestedDict y => dict.less_both fc x y
  | .ListOfNestedDict x, .ListOfNestedDict y => details.dict_vector_less_both fc x y
  | x, y =>
    (decide (x.kind_of.index < y.kind_of.index), decide (y.kind_of.index < x.kind_of.index))
/-- The `operator<` of two dictionaries, both ways: `std::lexicographical_compare` over
the sequenced indices, the elements compared by the `operator<` of
`std::pair`, `x.first < y.first || (!(y.first < x.first) && x.second < y.second)`. -/
def dict.less_both (fc : float_order) :
    List (cstring × mapped_type) → List (cstring × mapped_type) → Bool × Bool
  | (k1, v1) :: r1, (k2, v2) :: r2 =>
    if string_less k1 k2 || (!string_less k2 k1 && (mapped_type.less_both fc v1 v2).1) then
      (true,
        string_less k2 k1 || (!string_less k1 k2 && (mapped_type.less_both fc v1 v2).2))
    else if string_less k2 k1 || (!string_less k1 k2 && (mapped_type.less_both fc v1 v2).2) then
      (false, true)
    else dict.less_both fc r1 r2
  | [], _ :: _ => (true, false)
  | _ :: _, [] => (false, true)
  | [], [] => (false, false)
/-- The `operator<` of two `std::vector<dict>`, both ways. -/
def details.dict_vector_less_both (fc : float_order) :
    List (List (cstring × mapped_type)) → List (List (cstring × mapped_type)) → Bool × Bool
  | x :: xs, y :: ys =>
    if (dict.less_both fc x y).1 then (true, (dict.less_both fc x y).2)
    else if (dict.less_both fc x y).2 then (false, true)
    else details.dict_vector_less_both fc xs ys
  | [], _ :: _ => (true, false)
  | _ :: _, [] => (false, true)
  | [], [] => (false, false)
end

/-- The `operator<` of the variant. -/
def mapped_type.less (fc : float_order) (lhs rhs : mapped_type) : Bool :=
  (mapped_type.less_both fc lhs rhs).1

/-- The `operator<` of `dict`, `lhs.storage < rhs.storage`. -/
def dict.less (fc : float_order) (lhs rhs : dict) : Bool :=
  (dict.less_both fc lhs rhs).1

/-- The `operator<` of `std::pair<key_type, mapped_type>`. -/
def value_type.less (fc : float_order) (x y : value_type) : Bool :=
  string_less x.1 y.1 || (!string_less y.1 x.1 && mapped_type.less fc x.2 y.2)

mutual
/-- The `operator==` of the variant: the same `which()` and equal contents. -/
def mapped_type.equal (fc : float_order) : mapped_type → mapped_type → Bool
  | .Float x, .Float y => fc.equal x y
  | .Int x, .Int y => decide (x = y)
  | .String x, .String y => decide (x = y)
  | .ListInt x, .ListInt y => decide (x = y)
  | .ListFloat x, .ListFloat y => sequence_equal fc.equal x y
  | .ListString x, .ListString y => decide (x = y)
  | .ListBool x, .ListBool y => decide (x = y)
  | .NestedDict x, .NestedDict y => dict.equal fc x y
  | .ListOfNestedDict x, .ListOfNestedDict y => details.dict_vector_equal fc x y
  | _, _ => false
/-- The `operator==` of `dict`, `lhs.storage == rhs.storage`: the same size and
equal elements, position by position, the elements compared by the
`operator==` of `std::pair`. -/
def dict.equal (fc : float_order) :
    List (cstring × mapped_type) → List (cstring × mapped_type) → Bool
  | (k1, v1) :: r1, (k2, v2) :: r2 =>
    (decide (k1 = k2) && mapped_type.equal fc v1 v2) && dict.equal fc r1 r2
  | [], [] => true
  | _, _ => false
/-- The `operator==` of two `std::vector<dict>`. -/
def details.dict_vector_equal (fc : float_order) :
    List (List (cstring × mapped_type)) → List (List (cstring × mapped_type)) → Bool
  | x :: xs, y :: ys => dict.equal fc x y && details.dict_vector_equal fc xs ys
  | [], [] => true
  | _, _ => false
end

mutual
/-- Every `float` inside the value, at any depth, satisfies `ok`. -/
def mapped_type.floats_all (ok : cfloat → Bool) : mapped_type → Bool
  | .Float x => ok x
  | .ListFloat v => v.all ok
  | .NestedDict d => dict.floats_all ok d
  | .ListOfNestedDict v => details.dict_vector_floats_all ok v
  | _ => true
/-- Every `float` inside the dictionary, at any depth, satisfies `ok`. -/
def dict.floats_all (ok : cfloat → Bool) : List (cstring × mapped_type) → Bool
  | [] => true
  | (_, second) :: rest => mapped_type.floats_all ok second && dict.floats_all ok rest
/-- Every `float` inside the dictionaries of the list satisfies `ok`. -/
def details.dict_vector_floats_all (ok : cfloat → Bool) :
    List (List (cstring × mapped_type)) → Bool
  | [] => true
  | d :: rest => dict.floats_all ok d && details.dict_vector_floats_all ok rest
end

/-- A dictionary that holds no NaN, at any depth. -/
def dict.nan_free (d : dict) : Bool := dict.floats_all (fun x => !x.is_nan) d

/-! ## Strict weak orders, element by element -/

/-- The facts on one element `x` from which `less` is a strict weak order on the
domain `S` and `equal` its equivalence: against every `y` and `z` of the
domain, `less` is asymmetric at `x`, `equal x y` says that neither is less
than the other, and an element is on one side of every pair that `less`
separates, for `x` in each of the three places. -/
def ordered_at {α : Type} (S : α → Prop) (less equal : α → α → Bool) (x : α) : Prop :=
  ∀ y z, S y → S z →
    (less x y = true → ¬ less y x = true) ∧
    (equal x y = true ↔ ¬ less x y = true ∧ ¬ less y x = true) ∧
    (less x z = true → less x y = true ∨ less y z = true) ∧
    (less y x = true → less y z = true ∨ less z x = true) ∧
    (less z y = true → less z x = true ∨ less x y = true)

/-- The `operator==` of `std::pair<key_type, mapped_type>`. -/
def value_type.equal (fc : float_order) (x y : value_type) : Bool :=
  decide (x.1 = y.1) && mapped_type.equal fc x.2 y.2

/-! ## The offsets of the splitting loop, and `dict get(key)` -/

/-- The values of `offset` that the splitting loop of `get_recursive` passes to
`substr`, one for each iteration of `dict.split_loop`, in order; the last
one is that of the call that throws, if one does. -/
def dict.split_loop_offsets (key : cstring) : Nat → Nat → Option Nat → List Nat
  | _, _, none => []
  | 0, _, some _ => []
  | fuel + 1, offset, some pos =>
    match cstring.substr key offset pos with
    | none => [offset]
    | some _ =>
      offset :: dict.split_loop_offsets key fuel (offset + pos + 2)
        (cstring.find key delimiter (offset + pos))

/-- The offsets passed to `substr` in the run of `dict.split`. -/
def dict.split_offsets (key : cstring) : List Nat :=
  dict.split_loop_offsets key (key.length + 1) 0 (cstring.find key delimiter 0)

/-- The overload `dict dict::get(key)`: a `dict rvalue` created empty, passed to
`get(key, rvalue)` and returned. -/
def dict.get_by_value (fo : float_ops) (d : dict) (key : key_type) : dict :=
  (dict.get_dict fo d key dict.empty).2
/-! ## Lemmas on the storage -/

theorem dict.count_eq_zero_iff (d : dict) (key : key_type) :
    dict.count d key = 0 ↔ key ∉ dict.keys d := by
  induction d with
  | nil => simp [dict.count, dict.keys]
  | cons e rest ih =>
    simp only [dict.count, dict.keys] at ih ⊢
    by_cases h : e.1 = key
    · simp [List.countP_cons, h]
    · have h2 : ¬ key = e.1 := fun h3 => h h3.symm
      simp [List.countP_cons, h, h2, ih]

theorem dict.count_ne_zero_iff (d : dict) (key : key_type) :
    dict.count d key ≠ 0 ↔ key ∈ dict.keys d := by
  rw [Ne, dict.count_eq_zero_iff, not_not]

theorem dict.replace_keys (d : dict) (key : key_type) (value : mapped_type) :
    dict.keys (dict.replace d key (key, value)) = dict.keys d := by
  induction d with
  | nil => rfl
  | cons e rest ih =>
    simp only [dict.keys] at ih
    by_cases h : e.1 = key
    · simp [dict.replace, dict.keys, h]
    · simp [dict.replace, dict.keys, h, ih]

theorem dict.replace_eq_map (d : dict) (key : key_type) (x : value_type)
    (hu : dict.unique_keys d) :
    dict.replace d key x = d.map (fun e => if e.1 = key then x else e) := by
  induction d with
  | nil => rfl
  | cons e rest ih =>
    have hu2 : (e.1 :: dict.keys rest).Nodup := hu
    rw [List.nodup_cons] at hu2
    by_cases h : e.1 = key
    · have hrest : rest.map (fun e => if e.1 = key then x else e) = rest := by
        conv_rhs => rw [← List.map_id rest]
        apply List.map_congr_left
        intro a ha
        have : a.1 ≠ key := by
          intro h3
          apply hu2.1
          rw [h, ← h3]
          exact List.mem_map_of_mem Prod.fst ha
        simp [this]
      simp [dict.replace, h, hrest]
    · simp [dict.replace, h, ih hu2.2]

theorem dict.add_impl_keys_of_mem (d : dict) (key : key_type) (value : mapped_type)
    (back : Bool) (h : key ∈ dict.keys d) :
    dict.keys (dict.add_impl d key value back) = dict.keys d := by
  have hc := (dict.count_ne_zero_iff d key).2 h
  simp [dict.add_impl, hc, dict.replace_keys]

theorem dict.add_impl_of_not_mem (d : dict) (key : key_type) (value : mapped_type)
    (back : Bool) (h : key ∉ dict.keys d) :
    dict.add_impl d key value back
      = if back then d ++ [(key, value)] else (key, value) :: d := by
  have hc := (dict.count_eq_zero_iff d key).2 h
  simp [dict.add_impl, hc]

theorem dict.add_impl_unique (d : dict) (key : key_type) (value : mapped_type)
    (back : Bool) (hu : dict.unique_keys d) :
    dict.unique_keys (dict.add_impl d key value back) := by
  unfold dict.unique_keys at hu ⊢
  by_cases h : key ∈ dict.keys d
  · rw [dict.add_impl_keys_of_mem d key value back h]; exact hu
  · rw [dict.add_impl_of_not_mem d key value back h]
    cases back
    · simpa [dict.keys, List.nodup_cons] using ⟨by simpa [dict.keys] using h, hu⟩
    · simp only [dict.keys] at h hu
      simp only [if_true, dict.keys, List.map_append, List.map_cons, List.map_nil]
      rw [List.nodup_append]
      refine ⟨hu, by simp, ?_⟩
      intro a ha hb
      simp only [List.mem_singleton] at hb
      subst hb
      exact h ha

theorem dict.add_impl_keys_toFinset (d : dict) (key : key_type) (value : mapped_type)
    (back : Bool) :
    (dict.keys (dict.add_impl d key value back)).toFinset
      = Insert.insert key (dict.keys d).toFinset := by
  by_cases h : key ∈ dict.keys d
  · rw [dict.add_impl_keys_of_mem d key value back h]
    exact (Finset.insert_eq_of_mem (List.mem_toFinset.2 h)).symm
  · rw [dict.add_impl_of_not_mem d key value back h]
    cases back
    · simp [dict.keys]
    · ext a
      simp [dict.keys, or_comm]

theorem add_call.apply_eq (d : dict) (c : add_call) :
    ∃ value back, add_call.apply d c = dict.add_impl d c.key value back := by
  cases c with
  | add k v => exact ⟨v, true, rfl⟩
  | add_back k v => exact ⟨v, true, rfl⟩
  | add_front k v => exact ⟨v, false, rfl⟩

theorem dict.after_calls_invariant (calls : List add_call) :
    ∀ d : dict, dict.unique_keys d →
      dict.unique_keys (dict.after_calls d calls) ∧
      (dict.keys (dict.after_calls d calls)).toFinset
        = (dict.keys d).toFinset ∪ (calls.map add_call.key).toFinset := by
  induction calls with
  | nil => intro d hu; simpa [dict.after_calls] using hu
  | cons c rest ih =>
    intro d hu
    obtain ⟨value, back, hc⟩ := add_call.apply_eq d c
    have h1 := dict.add_impl_unique d c.key value back hu
    have h2 := dict.add_impl_keys_toFinset d c.key value back
    rw [← hc] at h1 h2
    obtain ⟨h3, h4⟩ := ih (add_call.apply d c) h1
    refine ⟨by simpa [dict.after_calls] using h3, ?_⟩
    have h5 : dict.after_calls d (c :: rest) = dict.after_calls (add_call.apply d c) rest := rfl
    rw [h5, h4, h2]
    ext a
    simp [or_assoc, or_comm, or_left_comm]

theorem dict.find_second_replace (d : dict) (key : key_type) (value : mapped_type)
    (h : key ∈ dict.keys d) :
    dict.find_second (dict.replace d key (key, value)) key = some value := by
  induction d with
  | nil => simp [dict.keys] at h
  | cons e rest ih =>
    by_cases h2 : e.1 = key
    · simp [dict.replace, dict.find_second, h2]
    · have h3 : key ∈ dict.keys rest := by
        have h4 : key = e.1 ∨ key ∈ dict.keys rest := by simpa [dict.keys] using h
        rcases h4 with h4 | h4
        · exact absurd h4.symm h2
        · exact h4
      simp [dict.replace, dict.find_second, h2, ih h3]

theorem dict.add_impl_replaces (d : dict) (key : key_type) (value : mapped_type) (back : Bool)
    (hu : dict.unique_keys d) (hk : dict.count d key ≠ 0) :
    dict.keys (dict.add_impl d key value back) = dict.keys d ∧
    dict.add_impl d key value back = d.map (fun e => if e.1 = key then (key, value) else e) ∧
    dict.find_second (dict.add_impl d key value back) key = some value := by
  have hm := (dict.count_ne_zero_iff d key).1 hk
  refine ⟨dict.add_impl_keys_of_mem d key value back hm, ?_, ?_⟩
  · simp only [dict.add_impl, hk, if_true, ne_eq, not_false_eq_true]
    exact dict.replace_eq_map d key (key, value) hu
  · simp only [dict.add_impl, hk, if_true, ne_eq, not_false_eq_true]
    exact dict.find_second_replace d key value hm

theorem dict.after_calls_add_fresh (entries : List value_type) :
    ∀ d : dict, (dict.keys d ++ entries.map Prod.fst).Nodup →
      dict.after_calls d (entries.map (fun e => add_call.add e.1 e.2)) = d ++ entries := by
  induction entries with
  | nil => intro d _; simp [dict.after_calls]
  | cons e rest ih =>
    intro d h
    have hnot : e.1 ∉ dict.keys d := by
      intro hmem
      rw [List.nodup_append] at h
      exact h.2.2 hmem (by simp)
    have hstep : add_call.apply d (add_call.add e.1 e.2) = d ++ [e] := by
      show dict.add_impl d e.1 e.2 true = d ++ [e]
      rw [dict.add_impl_of_not_mem d e.1 e.2 true hnot]
      simp
    have hnext : (dict.keys (d ++ [e]) ++ rest.map Prod.fst).Nodup := by
      simpa [dict.keys] using h
    have := ih (d ++ [e]) hnext
    simp only [dict.after_calls, List.map_cons, List.foldl_cons] at this ⊢
    rw [hstep, this]
    simp

/-! ## The claims -/

/-- C3 (uniqueness). After every finite sequence of `add`, `add_back` and
`add_front` calls on an empty dictionary, no key occurs twice in the
iteration sequence and `size()` is the number of distinct keys that were
added. -/
theorem add_calls_keys_unique (calls : List add_call) :
    (dict.keys (dict.after_calls dict.empty calls)).Nodup ∧
    dict.size (dict.after_calls dict.empty calls)
      = (calls.map add_call.key).toFinset.card := by
  have hempty : dict.unique_keys dict.empty := by
    simp [dict.unique_keys, dict.keys, dict.empty]
  obtain ⟨h1, h2⟩ := dict.after_calls_invariant calls dict.empty hempty
  refine ⟨h1, ?_⟩
  have h3 : dict.size (dict.after_calls dict.empty calls)
      = (dict.keys (dict.after_calls dict.empty calls)).length := by
    simp [dict.size, dict.keys]
  rw [h3, ← List.toFinset_card_of_nodup h1, h2]
  simp [dict.keys, dict.empty]

/-- C4 (replace in place). On a dictionary that already holds `k`, each of
`add(k, v)`, `add_back(k, v)` and `add_front(k, v)` leaves the sequence of
keys as it was, leaves every element with another key unchanged, and puts
`(k, v)` where the element of key `k` was, so that `k` then has the value
`v`. -/
theorem add_existing_key_in_place (d : dict) (k : key_type) (v : mapped_type)
    (hu : dict.unique_keys d) (hk : dict.count d k ≠ 0) :
    (dict.keys (dict.add d k v) = dict.keys d ∧
      dict.add d k v = d.map (fun e => if e.1 = k then (k, v) else e) ∧
      dict.find_second (dict.add d k v) k = some v) ∧
    (dict.keys (dict.add_back d k v) = dict.keys d ∧
      dict.add_back d k v = d.map (fun e => if e.1 = k then (k, v) else e) ∧
      dict.find_second (dict.add_back d k v) k = some v) ∧
    (dict.keys (dict.add_front d k v) = dict.keys d ∧
      dict.add_front d k v = d.map (fun e => if e.1 = k then (k, v) else e) ∧
      dict.find_second (dict.add_front d k v) k = some v) :=
  ⟨dict.add_impl_replaces d k v true hu hk, dict.add_impl_replaces d k v true hu hk,
    dict.add_impl_replaces d k v false hu hk⟩

/-- Witness of C4: the re-add of key `a` of `main.cpp`, between two other
keys. -/
theorem add_existing_key_in_place_witness :
    dict.count [(['x'], .Int 0), (['a'], .Int 1), (['y'], .Int 3)] ['a'] ≠ 0 ∧
    dict.keys (dict.add [(['x'], .Int 0), (['a'], .Int 1), (['y'], .Int 3)] ['a'] (.Int 2))
      = [['x'], ['a'], ['y']] ∧
    dict.add [(['x'], .Int 0), (['a'], .Int 1), (['y'], .Int 3)] ['a'] (.Int 2)
      = [(['x'], .Int 0), (['a'], .Int 2), (['y'], .Int 3)] ∧
    dict.add_front [(['x'], .Int 0), (['a'], .Int 1), (['y'], .Int 3)] ['a'] (.Int 2)
      = [(['x'], .Int 0), (['a'], .Int 2), (['y'], .Int 3)] :=
  ⟨by decide,
    (add_existing_key_in_place [(['x'], .Int 0), (['a'], .Int 1), (['y'], .Int 3)] ['a']
      (.Int 2) (by decide) (by decide)).1.1,
    (add_existing_key_in_place [(['x'], .Int 0), (['a'], .Int 1), (['y'], .Int 3)] ['a']
      (.Int 2) (by decide) (by decide)).1.2.1.trans rfl,
    (add_existing_key_in_place [(['x'], .Int 0), (['a'], .Int 1), (['y'], .Int 3)] ['a']
      (.Int 2) (by decide) (by decide)).2.2.2.1.trans rfl⟩

/-- C5 (order preservation). For a key `k` that `d` does not hold, `add(k, v)`
and `add_back(k, v)` give the elements of `d` followed by `(k, v)`, and
`add_front(k, v)` gives `(k, v)` followed by the elements of `d`; hence a
dictionary built from the empty one by `add` alone, no key added twice,
holds the added elements in the order of the calls. -/
theorem add_new_key_order (d : dict) (k : key_type) (v : mapped_type)
    (entries : List value_type) (hk : dict.count d k = 0)
    (hfresh : (entries.map Prod.fst).Nodup) :
    dict.add d k v = d ++ [(k, v)] ∧
    dict.add_back d k v = d ++ [(k, v)] ∧
    dict.add_front d k v = (k, v) :: d ∧
    dict.after_calls dict.empty (entries.map (fun e => add_call.add e.1 e.2)) = entries ∧
    dict.keys (dict.after_calls dict.empty (entries.map (fun e => add_call.add e.1 e.2)))
      = entries.map Prod.fst := by
  have hnot := (dict.count_eq_zero_iff d k).1 hk
  have hall : dict.after_calls dict.empty (entries.map (fun e => add_call.add e.1 e.2))
      = entries := by
    have := dict.after_calls_add_fresh entries dict.empty (by simpa [dict.keys, dict.empty] using hfresh)
    simpa [dict.empty] using this
  refine ⟨?_, ?_, ?_, hall, ?_⟩
  · show dict.add_impl d k v true = _
    rw [dict.add_impl_of_not_mem d k v true hnot]; simp
  · show dict.add_impl d k v true = _
    rw [dict.add_impl_of_not_mem d k v true hnot]; simp
  · show dict.add_impl d k v false = _
    rw [dict.add_impl_of_not_mem d k v false hnot]; simp
  · rw [hall]; rfl

/-- Witness of C5: the keys `a`, `b`, `c` of `main.cpp`, added in this order. -/
theorem add_new_key_order_witness :
    dict.add_front [(['a'], .Int 1)] ['b'] (.Int 2) = [(['b'], .Int 2), (['a'], .Int 1)] ∧
    dict.keys (dict.after_calls dict.empty
      ([(['a'], mapped_type.Int 3), (['b'], .Int 2), (['c'], .Int 1)].map
        (fun e => add_call.add e.1 e.2))) = [['a'], ['b'], ['c']] :=
  ⟨(add_new_key_order [(['a'], .Int 1)] ['b'] (.Int 2)
      [(['a'], .Int 3), (['b'], .Int 2), (['c'], .Int 1)] (by decide) (by decide)).2.2.1,
   (add_new_key_order [(['a'], .Int 1)] ['b'] (.Int 2)
      [(['a'], .Int 3), (['b'], .Int 2), (['c'], .Int 1)] (by decide) (by decide)).2.2.2.2⟩

/-! ### Lemmas on `get` -/

theorem dict.find_second_of_mem (d : dict) (key : key_type) (h : key ∈ dict.keys d) :
    ∃ v, dict.find_second d key = some v := by
  induction d with
  | nil => simp [dict.keys] at h
  | cons e rest ih =>
    by_cases h2 : e.1 = key
    · exact ⟨e.2, by simp [dict.find_second, h2]⟩
    · have h4 : key = e.1 ∨ key ∈ dict.keys rest := by simpa [dict.keys] using h
      rcases h4 with h4 | h4
      · exact absurd h4.symm h2
      · obtain ⟨v, hv⟩ := ih h4
        exact ⟨v, by simp [dict.find_second, h2, hv]⟩

theorem dict.mem_of_find_second (d : dict) (key : key_type) (v : mapped_type)
    (h : dict.find_second d key = some v) : key ∈ dict.keys d := by
  induction d with
  | nil => simp [dict.find_second] at h
  | cons e rest ih =>
    by_cases h2 : e.1 = key
    · simp [dict.keys, h2]
    · simp only [dict.find_second, h2, if_false] at h
      have := ih h
      simp only [dict.keys] at this
      simp [dict.keys, this]

theorem dict.get_of_find_second (fo : float_ops) (d : dict) (key : key_type)
    (rvalue v : mapped_type) (h : dict.find_second d key = some v) :
    dict.get fo d key rvalue = details.get_visitor fo rvalue v := by
  have hc := (dict.count_ne_zero_iff d key).2 (dict.mem_of_find_second d key v h)
  simp [dict.get, hc, h]

theorem dict.get_of_count_eq_zero (fo : float_ops) (d : dict) (key : key_type)
    (rvalue : mapped_type) (h : dict.count d key = 0) :
    dict.get fo d key rvalue = (false, rvalue) := by
  simp [dict.get, h]

theorem details.get_visitor_true_iff (fo : float_ops) (rvalue value : mapped_type) :
    (details.get_visitor fo rvalue value).1 = true
      ↔ kind.accepts rvalue.kind_of value.kind_of = true := by
  cases rvalue <;> cases value <;>
    simp [details.get_visitor, kind.accepts, mapped_type.kind_of]

theorem details.get_visitor_kind (fo : float_ops) (rvalue value : mapped_type) :
    (details.get_visitor fo rvalue value).2.kind_of = rvalue.kind_of := by
  cases rvalue <;> cases value <;> rfl

theorem details.get_visitor_false (fo : float_ops) (rvalue value : mapped_type)
    (h : (details.get_visitor fo rvalue value).1 = false) :
    details.get_visitor fo rvalue value = (false, rvalue) := by
  cases rvalue <;> cases value <;> first | rfl | (simp [details.get_visitor] at h)

theorem details.get_visitor_same_kind (fo : float_ops) (rvalue value : mapped_type)
    (hk : rvalue.kind_of = value.kind_of) (hs : value.kind_of ≠ kind.String) :
    details.get_visitor fo rvalue value = (true, value) := by
  cases rvalue <;> cases value <;>
    first | rfl | (exact absurd rfl hs) | (simp [mapped_type.kind_of] at hk)

theorem dict.find_second_add_impl (d : dict) (key : key_type) (value : mapped_type)
    (back : Bool) : dict.find_second (dict.add_impl d key value back) key = some value := by
  by_cases h : key ∈ dict.keys d
  · have hc := (dict.count_ne_zero_iff d key).2 h
    simp only [dict.add_impl, hc, if_true, ne_eq, not_false_eq_true]
    exact dict.find_second_replace d key value h
  · rw [dict.add_impl_of_not_mem d key value back h]
    cases back
    · simp [dict.find_second]
    · simp only [if_true]
      induction d with
      | nil => simp [dict.find_second]
      | cons e rest ih =>
        have h3 : ¬ key = e.1 ∧ key ∉ dict.keys rest := by simpa [dict.keys] using h
        have h2 : ¬ e.1 = key := fun h4 => h3.1 h4.symm
        simpa [dict.find_second, h2] using ih h3.2

theorem dict.get_add_impl (fo : float_ops) (d : dict) (key : key_type)
    (value rvalue : mapped_type) (back : Bool) :
    dict.get fo (dict.add_impl d key value back) key rvalue
      = details.get_visitor fo rvalue value :=
  dict.get_of_find_second fo _ key rvalue value (dict.find_second_add_impl d key value back)

/-- The round trip of `add` and `get` for every kind but `String`, from any
content of the output, and for `String` from any content `s`, to which the
stored string is appended. -/
theorem dict.get_add_same_kind (fo : float_ops) (d : dict) (key : key_type)
    (value rvalue : mapped_type) (hk : rvalue.kind_of = value.kind_of) :
    (value.kind_of ≠ kind.String →
      dict.get fo (dict.add d key value) key rvalue = (true, value)) ∧
    (∀ s t, rvalue = .String s → value = .String t →
      dict.get fo (dict.add d key value) key rvalue = (true, .String (s ++ t))) := by
  constructor
  · intro hs
    rw [dict.add, dict.get_add_impl]
    exact details.get_visitor_same_kind fo rvalue value hk hs
  · intro s t hr hv
    subst hr hv
    rw [dict.add, dict.get_add_impl]
    simp [details.get_visitor, details.appended, lexical_cast_string]

/-- C6. The call `get(k, out)` returns true exactly when `k` is in the dictionary and
the kind of `out` accepts the stored kind, by the table `kind.accepts`; in
particular a stored `String` is refused by every target but `String`, and an
absent key gives false. -/
theorem get_true_iff_present_and_accepted (fo : float_ops) (d : dict) (k : key_type)
    (out : mapped_type) :
    ((dict.get fo d k out).1 = true ↔
      dict.count d k ≠ 0 ∧
        ∃ v, dict.find_second d k = some v ∧ kind.accepts out.kind_of v.kind_of = true) ∧
    (∀ s, dict.find_second d k = some (.String s) → out.kind_of ≠ kind.String →
      (dict.get fo d k out).1 = false) ∧
    (dict.count d k = 0 → (dict.get fo d k out).1 = false) := by
  refine ⟨?_, ?_, ?_⟩
  · by_cases hc : dict.count d k = 0
    · simp [dict.get_of_count_eq_zero fo d k out hc, hc]
    · obtain ⟨v, hv⟩ := dict.find_second_of_mem d k ((dict.count_ne_zero_iff d k).1 hc)
      rw [dict.get_of_find_second fo d k out v hv, details.get_visitor_true_iff]
      constructor
      · intro h; exact ⟨hc, v, hv, h⟩
      · rintro ⟨_, w, hw, h⟩
        rw [hv] at hw
        cases hw
        exact h
  · intro s hs hout
    rw [dict.get_of_find_second fo d k out _ hs]
    cases out <;> first | rfl | exact absurd rfl hout
  · intro hc
    rw [dict.get_of_count_eq_zero fo d k out hc]

/-- C2 at the failing input: a dictionary that holds the string `v` under `k`
and an output string that holds `x`; `get` returns true and leaves `xv` in
the output, not `v`. -/
theorem get_string_into_nonempty_output (fo : float_ops) :
    dict.get fo (dict.add dict.empty ['k'] (.String ['v'])) ['k'] (.String ['x'])
      = (true, .String ['x', 'v']) ∧
    (dict.get fo (dict.add dict.empty ['k'] (.String ['v'])) ['k'] (.String ['x'])).2
      ≠ .String ['v'] := by
  constructor
  · rfl
  · intro h
    have h2 : (mapped_type.String ['x', 'v']) = .String ['v'] := h
    injection h2 with h3
    exact absurd h3 (by decide)

/-! ### Lemmas on `str` -/

theorem dict.str_loop_nil (fo : float_ops) : dict.str_loop fo [] = [] := by
  simp [dict.str_loop]

theorem dict.str_loop_cons (fo : float_ops) (e : value_type) (rest : dict) :
    dict.str_loop fo (e :: rest)
      = dict.entry_text fo e ++ (if rest.length + 1 ≠ 1 then [',', ' '] else [])
          ++ dict.str_loop fo rest := by
  obtain ⟨first, second⟩ := e
  simp [dict.str_loop, dict.entry_text]

theorem dict.str_loop_eq_intercalate (fo : float_ops) (d : dict) :
    dict.str_loop fo d = [',', ' '].intercalate (d.map (dict.entry_text fo)) := by
  induction d with
  | nil => simp [dict.str_loop_nil, List.intercalate]
  | cons e rest ih =>
    rw [dict.str_loop_cons, ih]
    cases rest with
    | nil => simp [List.intercalate]
    | cons e2 rest2 => simp [List.intercalate, List.intersperse]

/-- The rendering asserted in `main.cpp`: `c.str()` for `c = {b: {a: {i: 1, f: "3.14"}}}`. -/
theorem dict.str_main_example (fo : float_ops) :
    dict.str fo [(['b'], .NestedDict [(['a'], .NestedDict
      [(['i'], .Int 1), (['f'], .String ['3', '.', '1', '4'])])])]
      = "\x7b".toList ++ [quote_char] ++ "b".toList ++ [quote_char] ++ ": \x7b".toList
        ++ [quote_char] ++ "a".toList ++ [quote_char] ++ ": \x7b".toList
        ++ [quote_char] ++ "i".toList ++ [quote_char] ++ ": 1, ".toList
        ++ [quote_char] ++ "f".toList ++ [quote_char] ++ ": 3.14\x7d\x7d\x7d".toList := by
  rfl

/-- C7. The method `str()` gives `"{"`, then the elements in sequence order, each as
its key between single quotes, a colon, a space and the rendered value,
joined by `", "`, then `"}"`; the empty dictionary gives `"{}"`; a `String`
renders as its characters, an `Int` as its decimal numeral, a `NestedDict`
as the `str()` of the nested dictionary, and `get` into an empty string
yields that rendering of the element's value. -/
theorem str_is_braced_joined_entries (fo : float_ops) (d : dict) :
    dict.str fo d
      = [Char.ofNat 123] ++ [',', ' '].intercalate
          (d.map (fun e => [quote_char] ++ e.1 ++ [quote_char] ++ [':'] ++ [' ']
            ++ details.appended fo e.2)) ++ [Char.ofNat 125] ∧
    dict.str fo dict.empty = [Char.ofNat 123, Char.ofNat 125] ∧
    (∀ s, details.appended fo (.String s) = s) ∧
    (∀ i : Int, details.appended fo (.Int i)
      = if i < 0 then '-' :: Nat.toDigits 10 i.natAbs else Nat.toDigits 10 i.toNat) ∧
    (∀ n : dict, details.appended fo (.NestedDict n) = dict.str fo n) ∧
    (∀ k v, dict.find_second d k = some v →
      dict.get fo d k (.String []) = (true, .String (details.appended fo v))) := by
  refine ⟨?_, ?_, ?_, ?_, ?_, ?_⟩
  · rw [dict.str, dict.str_loop_eq_intercalate]
    rfl
  · simp [dict.str, dict.empty, dict.str_loop_nil]
  · intro s; simp [details.appended, lexical_cast_string]
  · intro i; simp [details.appended, lexical_cast_int]
  · intro n; simp [details.appended, dict.str]
  · intro k v hv
    rw [dict.get_of_find_second fo d k _ v hv]
    simp [details.get_visitor]

/-! ### Lemmas on `size_recursive` -/

theorem dict.size_recursive_cons (e : value_type) (rest : dict) :
    dict.size_recursive (e :: rest) = details.size_visitor e.2 + dict.size_recursive rest := by
  obtain ⟨first, second⟩ := e
  simp [dict.size_recursive]

theorem dict.size_recursive_append (d1 d2 : dict) :
    dict.size_recursive (d1 ++ d2) = dict.size_recursive d1 + dict.size_recursive d2 := by
  induction d1 with
  | nil => simp [dict.size_recursive]
  | cons e rest ih =>
    rw [List.cons_append, dict.size_recursive_cons, dict.size_recursive_cons, ih]
    omega

theorem details.size_visitor_eq_contribution (e : value_type) :
    details.size_visitor e.2 = dict.contribution e := by
  obtain ⟨first, second⟩ := e
  cases second <;> simp [details.size_visitor, dict.contribution]

theorem dict.size_recursive_eq_sum (d : dict) :
    dict.size_recursive d = (d.map dict.contribution).sum := by
  induction d with
  | nil => simp [dict.size_recursive]
  | cons e rest ih =>
    rw [dict.size_recursive_cons, details.size_visitor_eq_contribution, ih]
    simp

mutual
theorem details.size_visitor_list_free (v : mapped_type) (h : mapped_type.list_free v = true) :
    details.size_visitor v = 1 + mapped_type.entries_inside v := by
  cases v with
  | NestedDict d =>
    have h2 : dict.list_free d = true := by simpa [mapped_type.list_free] using h
    simp [details.size_visitor, mapped_type.entries_inside, dict.size_recursive_list_free d h2]
  | ListOfNestedDict l => simp [mapped_type.list_free] at h
  | Float x => simp [details.size_visitor, mapped_type.entries_inside]
  | Int x => simp [details.size_visitor, mapped_type.entries_inside]
  | String x => simp [details.size_visitor, mapped_type.entries_inside]
  | ListInt x => simp [details.size_visitor, mapped_type.entries_inside]
  | ListFloat x => simp [details.size_visitor, mapped_type.entries_inside]
  | ListString x => simp [details.size_visitor, mapped_type.entries_inside]
  | ListBool x => simp [details.size_visitor, mapped_type.entries_inside]
theorem dict.size_recursive_list_free (d : List (cstring × mapped_type))
    (h : dict.list_free d = true) : dict.size_recursive d = dict.total_entries d := by
  cases d with
  | nil => simp [dict.size_recursive, dict.total_entries]
  | cons e rest =>
    obtain ⟨first, second⟩ := e
    have h2 : mapped_type.list_free second = true ∧ dict.list_free rest = true := by
      simpa [dict.list_free] using h
    simp [dict.size_recursive, dict.total_entries,
      details.size_visitor_list_free second h2.1, dict.size_recursive_list_free rest h2.2]
end

/-! ### Lemmas on the splitting loop of `get_recursive` -/

theorem find_from_skip (k : cstring) (hk : ':' ∉ k) (t : cstring) (i : Nat) :
    find_from delimiter (k ++ t) i = find_from delimiter t (i + k.length) := by
  induction k generalizing i with
  | nil => simp
  | cons c k ih =>
    have hc : ¬ ':' = c := fun h => hk (List.mem_cons.2 (Or.inl h))
    have hk2 : ':' ∉ k := fun h => hk (List.mem_cons.2 (Or.inr h))
    have hp : ¬ (delimiter <+: c :: (k ++ t)) := by
      unfold delimiter
      rw [List.cons_prefix_cons]
      exact fun h => hc h.1
    rw [List.cons_append, find_from, if_neg hp, ih hk2]
    congr 1
    simp only [List.length_cons]
    omega

theorem find_from_delimiter (t : cstring) (i : Nat) :
    find_from delimiter (delimiter ++ t) i = some i := by
  have hp : delimiter <+: ':' :: (':' :: t) := List.prefix_append delimiter t
  show find_from delimiter (':' :: (':' :: t)) i = some i
  rw [find_from, if_pos hp]

theorem find_from_none (k : cstring) (hk : ':' ∉ k) (i : Nat) :
    find_from delimiter k i = none := by
  have := find_from_skip k hk [] i
  rw [List.append_nil] at this
  rw [this]
  simp [find_from, delimiter]

theorem cstring.find_at (a t : cstring) (needle : cstring) (n : Nat) (hn : a.length = n) :
    cstring.find (a ++ t) needle n = find_from needle t n := by
  have h : ¬ (a ++ t).length < n := by
    rw [List.length_append]; omega
  rw [cstring.find, if_neg h, List.drop_left' hn]

theorem cstring.find_beyond (s needle : cstring) (n : Nat) (hn : s.length < n) :
    cstring.find s needle n = none := by
  rw [cstring.find, if_pos hn]

theorem cstring.substr_at (a t : cstring) (n count : Nat) (hn : a.length = n) :
    cstring.substr (a ++ t) n count = some (t.take count) := by
  have h : ¬ (a ++ t).length < n := by
    rw [List.length_append]; omega
  rw [cstring.substr, if_neg h, List.drop_left' hn]

theorem dict.split_loop_step (key : cstring) (fuel offset pos : Nat) (keys : List cstring)
    (segment : cstring) (next : Option Nat)
    (hs : cstring.substr key offset pos = some segment)
    (hf : cstring.find key delimiter (offset + pos) = next) :
    dict.split_loop key (fuel + 1) offset (some pos) keys
      = dict.split_loop key fuel (offset + pos + 2) next (keys ++ [segment]) := by
  simp [dict.split_loop, hs, hf]

theorem dict.split_loop_done (key : cstring) (fuel offset : Nat) (keys : List cstring) :
    dict.split_loop key fuel offset none keys = .ok keys := by
  cases fuel <;> simp [dict.split_loop]

/-- The splitting loop on a path of three keys of one length, the first with
no colon: the three keys. -/
theorem dict.split_three (k1 k2 k3 : key_type) (h1 : ':' ∉ k1)
    (h12 : k1.length = k2.length) (h23 : k2.length = k3.length) :
    dict.split (k1 ++ delimiter ++ k2 ++ delimiter ++ k3) = .ok [k1, k2, k3] := by
  have hd : delimiter.length = 2 := rfl
  have hlen : (k1 ++ delimiter ++ k2 ++ delimiter ++ k3).length = 3 * k1.length + 4 := by
    simp only [List.length_append, hd]; omega
  -- the path cut after nothing, after `k1`, after `k1::`, after `k1::k2`, after `k1::k2::`
  have e0 : k1 ++ delimiter ++ k2 ++ delimiter ++ k3
      = [] ++ (k1 ++ (delimiter ++ (k2 ++ (delimiter ++ k3)))) := by simp
  have e1 : k1 ++ delimiter ++ k2 ++ delimiter ++ k3
      = k1 ++ (delimiter ++ (k2 ++ (delimiter ++ k3))) := by simp
  have e2 : k1 ++ delimiter ++ k2 ++ delimiter ++ k3
      = (k1 ++ delimiter) ++ (k2 ++ (delimiter ++ k3)) := by simp
  have e3 : k1 ++ delimiter ++ k2 ++ delimiter ++ k3
      = (k1 ++ delimiter ++ k2) ++ (delimiter ++ k3) := by simp
  have e4 : k1 ++ delimiter ++ k2 ++ delimiter ++ k3
      = (k1 ++ delimiter ++ k2 ++ delimiter) ++ k3 := by simp
  have fa : cstring.find (k1 ++ delimiter ++ k2 ++ delimiter ++ k3) delimiter 0
      = some k1.length := by
    rw [e0, cstring.find_at [] _ delimiter 0 rfl, find_from_skip k1 h1, find_from_delimiter]
    simp
  have sb : cstring.substr (k1 ++ delimiter ++ k2 ++ delimiter ++ k3) 0 k1.length
      = some k1 := by
    rw [e0, cstring.substr_at [] _ 0 _ rfl, List.take_left]
  have fc : cstring.find (k1 ++ delimiter ++ k2 ++ delimiter ++ k3) delimiter (0 + k1.length)
      = some k1.length := by
    rw [e1, cstring.find_at k1 _ delimiter (0 + k1.length) (by omega), find_from_delimiter]
    simp
  have sd : cstring.substr (k1 ++ delimiter ++ k2 ++ delimiter ++ k3) (0 + k1.length + 2)
      k1.length = some k2 := by
    rw [e2, cstring.substr_at (k1 ++ delimiter) _ _ _ (by simp [hd]), List.take_left' h12.symm]
  have fe : cstring.find (k1 ++ delimiter ++ k2 ++ delimiter ++ k3) delimiter
      (0 + k1.length + 2 + k1.length) = some (0 + k1.length + 2 + k1.length) := by
    rw [e3, cstring.find_at (k1 ++ delimiter ++ k2) _ delimiter _
      (by simp only [List.length_append, hd]; omega), find_from_delimiter]
  have sf : cstring.substr (k1 ++ delimiter ++ k2 ++ delimiter ++ k3)
      (0 + k1.length + 2 + k1.length + 2) (0 + k1.length + 2 + k1.length) = some k3 := by
    rw [e4, cstring.substr_at (k1 ++ delimiter ++ k2 ++ delimiter) _ _ _
      (by simp only [List.length_append, hd]; omega), List.take_of_length_le (by omega)]
  have fg : cstring.find (k1 ++ delimiter ++ k2 ++ delimiter ++ k3) delimiter
      (0 + k1.length + 2 + k1.length + 2 + (0 + k1.length + 2 + k1.length)) = none :=
    cstring.find_beyond _ _ _ (by rw [hlen]; omega)
  obtain ⟨fuel, hfuel⟩ : ∃ fuel, (k1 ++ delimiter ++ k2 ++ delimiter ++ k3).length + 1
      = fuel + 1 + 1 + 1 := ⟨3 * k1.length + 2, by rw [hlen]⟩
  rw [dict.split, fa, hfuel, dict.split_loop_step _ _ _ _ _ _ _ sb fc,
    dict.split_loop_step _ _ _ _ _ _ _ sd fe, dict.split_loop_step _ _ _ _ _ _ _ sf fg,
    dict.split_loop_done]
  rfl

theorem find_from_bounds (needle : cstring) (t : cstring) (i p : Nat)
    (h : find_from needle t i = some p) : i ≤ p ∧ p + needle.length ≤ i + t.length := by
  induction t generalizing i with
  | nil =>
    by_cases hn : needle = []
    · simp only [find_from, hn, if_true, Option.some.injEq] at h
      subst h; simp [hn]
    · simp [find_from, hn] at h
  | cons c t ih =>
    by_cases hp : needle <+: c :: t
    · simp only [find_from, hp, if_true, Option.some.injEq] at h
      subst h
      exact ⟨le_refl _, Nat.add_le_add_left hp.length_le _⟩
    · simp only [find_from, hp, if_false] at h
      have := ih (i + 1) h
      simp only [List.length_cons]
      omega

theorem cstring.find_bounds (s needle : cstring) (pos p : Nat)
    (h : cstring.find s needle pos = some p) : pos ≤ p ∧ p + needle.length ≤ s.length := by
  by_cases hl : s.length < pos
  · simp [cstring.find, hl] at h
  · simp only [cstring.find, hl, if_false] at h
    have := find_from_bounds needle (s.drop pos) pos p h
    simp only [List.length_drop] at this
    omega

theorem dict.split_loop_total (key : cstring) :
    ∀ (fuel offset pos : Nat) (keys : List cstring),
      offset ≤ key.length → key.length < fuel + offset →
      ∃ ks, dict.split_loop key fuel offset (some pos) keys = .ok ks := by
  intro fuel
  induction fuel with
  | zero => intro offset pos keys h1 h2; omega
  | succ fuel ih =>
    intro offset pos keys h1 h2
    have hs : cstring.substr key offset pos = some ((key.drop offset).take pos) := by
      simp [cstring.substr, Nat.not_lt.2 h1]
    rw [dict.split_loop_step key fuel offset pos keys _ _ hs rfl]
    cases hf : cstring.find key delimiter (offset + pos) with
    | none => exact ⟨_, dict.split_loop_done key fuel _ _⟩
    | some next =>
      have hb := cstring.find_bounds key delimiter _ next hf
      have hd : delimiter.length = 2 := rfl
      rw [hd] at hb
      exact ih (offset + pos + 2) next _ (by omega) (by omega)

/-- The splitting loop of `get_recursive` returns for every path: `substr` is
never called past the end of the path and the bound on the iterations is
never reached. -/
theorem dict.split_total (key : cstring) : ∃ keys, dict.split key = .ok keys := by
  unfold dict.split
  cases hf : cstring.find key delimiter 0 with
  | none => exact ⟨_, dict.split_loop_done key _ _ _⟩
  | some pos => exact dict.split_loop_total key _ 0 pos [] (Nat.zero_le _) (by omega)

/-! ### Lemmas on the walk of `get_recursive` -/

theorem dict.find_second_eq_none (d : dict) (key : key_type) (h : dict.count d key = 0) :
    dict.find_second d key = none := by
  cases hf : dict.find_second d key with
  | none => rfl
  | some v =>
    exact absurd (dict.mem_of_find_second d key v hf) ((dict.count_eq_zero_iff d key).1 h)

theorem dict.get_dict_eq (fo : float_ops) (d : dict) (key : key_type) (value : dict) :
    dict.get_dict fo d key value
      = match dict.find_second d key with
        | some (.NestedDict t) => (true, t)
        | _ => (false, value) := by
  by_cases hc : dict.count d key = 0
  · simp [dict.get_dict, dict.get_of_count_eq_zero fo d key _ hc,
      dict.find_second_eq_none d key hc]
  · obtain ⟨v, hv⟩ := dict.find_second_of_mem d key ((dict.count_ne_zero_iff d key).1 hc)
    rw [dict.get_dict, dict.get_of_find_second fo d key _ v hv, hv]
    cases v <;> rfl

theorem dict.get_recursive_three (fo : float_ops) (d : dict) (k1 k2 k3 : key_type)
    (out : mapped_type) (h1 : ':' ∉ k1)
    (h12 : k1.length = k2.length) (h23 : k2.length = k3.length) :
    dict.get_recursive fo d (k1 ++ delimiter ++ k2 ++ delimiter ++ k3) out
      = .ok (dict.chained_get fo d k1 k2 k3 out) := by
  simp only [dict.get_recursive, dict.split_three k1 k2 k3 h1 h12 h23, dict.get_dict_eq,
    dict.chained_get]
  cases hf1 : dict.find_second d k1 with
  | none => rfl
  | some v1 =>
    cases v1 with
    | NestedDict d1 =>
      simp only [List.getLast?_cons_cons, List.getLast?_singleton, List.dropLast_cons₂,
        List.dropLast_single, dict.walk, dict.get_dict_eq]
      cases hf2 : dict.find_second d1 k2 with
      | none => rfl
      | some v2 => cases v2 <;> rfl
    | _ => rfl

/-- C1 at the failing input: the dictionary `{a: {bc: 5}}` and the path `a::bc`, of
two segments with no colon. The loop cuts the path into `a` and `b`, and
`get_recursive` returns false with the output untouched, although `a` is
a nested dictionary in which the typed `get` of `bc` succeeds with 5. -/
theorem get_recursive_cuts_longer_segment (fo : float_ops) :
    dict.split (['a'] ++ delimiter ++ ['b', 'c']) = .ok [['a'], ['b']] ∧
    dict.get_recursive fo [(['a'], .NestedDict [(['b', 'c'], .Int 5)])]
        (['a'] ++ delimiter ++ ['b', 'c']) (.Int 0) = .ok (false, .Int 0) ∧
    dict.get_dict fo [(['a'], .NestedDict [(['b', 'c'], .Int 5)])] ['a'] dict.empty
      = (true, [(['b', 'c'], .Int 5)]) ∧
    dict.get fo [(['b', 'c'], .Int 5)] ['b', 'c'] (.Int 0) = (true, .Int 5) :=
  ⟨rfl, rfl, rfl, rfl⟩

/-- C8. For a dictionary that holds no `ListOfNestedDict` at any depth,
`size_recursive()` is the sum over the elements of one for an element that
is not a dictionary and of `1 + nested.size_recursive()` for a `NestedDict`,
and it is the total number of elements in the dictionary and in all the
dictionaries nested inside it. -/
theorem size_recursive_counts_nested_entries (d : dict) (h : dict.list_free d = true) :
    dict.size_recursive d = (d.map dict.contribution).sum ∧
    dict.size_recursive d = dict.total_entries d :=
  ⟨dict.size_recursive_eq_sum d, dict.size_recursive_list_free d h⟩

/-- Witness of C8: the dictionary `c` of `main.cpp`, `{b: {a: {i: 1, f: 3.14}}}`, of
size one and recursive size four. -/
theorem size_recursive_counts_nested_entries_witness :
    dict.list_free [(['b'], .NestedDict [(['a'], .NestedDict
      [(['i'], .Int 1), (['f'], .String ['3', '.', '1', '4'])])])] = true ∧
    dict.size [(['b'], mapped_type.NestedDict [(['a'], .NestedDict
      [(['i'], .Int 1), (['f'], .String ['3', '.', '1', '4'])])])] = 1 ∧
    dict.size_recursive [(['b'], .NestedDict [(['a'], .NestedDict
      [(['i'], .Int 1), (['f'], .String ['3', '.', '1', '4'])])])] = 4 ∧
    dict.total_entries [(['b'], .NestedDict [(['a'], .NestedDict
      [(['i'], .Int 1), (['f'], .String ['3', '.', '1', '4'])])])] = 4 :=
  ⟨by decide, by decide,
    (size_recursive_counts_nested_entries _ (by decide)).2.trans (by decide), by decide⟩

/-- C9 as stated fails: a dictionary whose one element holds a list of three
dictionaries has recursive size one, not three. -/
theorem list_of_three_dicts_counts_once :
    dict.size_recursive [(['v'], .ListOfNestedDict [dict.empty, dict.empty, dict.empty])] = 1 ∧
    dict.size_recursive [(['v'], .ListOfNestedDict [dict.empty, dict.empty, dict.empty])]
      ≠ [dict.empty, dict.empty, dict.empty].length := by
  decide

/-- C9, amended. An element that holds a `ListOfNestedDict` adds exactly one to
`size_recursive()`, whatever the number of dictionaries in the list and
whatever they hold: it is counted like a scalar. -/
theorem list_of_dicts_adds_one (before after : dict) (k : key_type) (v : List dict) :
    dict.size_recursive (before ++ (k, .ListOfNestedDict v) :: after)
      = dict.size_recursive before + 1 + dict.size_recursive after ∧
    dict.size_recursive (before ++ (k, .ListOfNestedDict v) :: after)
      = dict.size_recursive (before ++ (k, .Int 0) :: after) := by
  constructor
  · simp only [dict.size_recursive_append, dict.size_recursive_cons, details.size_visitor]
    omega
  · simp only [dict.size_recursive_append, dict.size_recursive_cons, details.size_visitor]

/-- C10. For three keys of one length with no colon, `get_recursive` on the
path `k1::k2::k3` returns, with the same `bool` and the same output, what
the chained lookup gives: `k1` as a nested dictionary of `d`, `k2` as a
nested dictionary of that, then the typed `get(k3, out)`, with false as soon
as one step fails. -/
theorem get_recursive_three_keys (fo : float_ops) (d : dict) (k1 k2 k3 : key_type)
    (out : mapped_type) (h1 : ':' ∉ k1) (_h2 : ':' ∉ k2) (_h3 : ':' ∉ k3)
    (h12 : k1.length = k2.length) (h23 : k2.length = k3.length) :
    dict.get_recursive fo d (k1 ++ delimiter ++ k2 ++ delimiter ++ k3) out
      = .ok (dict.chained_get fo d k1 k2 k3 out) :=
  dict.get_recursive_three fo d k1 k2 k3 out h1 h12 h23

/-- Witness of C10: the path `b::c::v` of `main.cpp` in the dictionary
`{v: 1, b: {v: 2, c: {v: 3}}}`, read into an `int`. -/
theorem get_recursive_three_keys_witness :
    (':' ∉ ['b'] ∧ ':' ∉ ['c'] ∧ ':' ∉ ['v']) ∧
    dict.get_recursive float_ops.whole
      [(['v'], .Int 1),
        (['b'], .NestedDict [(['v'], .Int 2), (['c'], .NestedDict [(['v'], .Int 3)])])]
      (['b'] ++ delimiter ++ ['c'] ++ delimiter ++ ['v']) (.Int 0) = .ok (true, .Int 3) :=
  ⟨by decide,
    (get_recursive_three_keys float_ops.whole _ ['b'] ['c'] ['v'] (.Int 0)
      (by decide) (by decide) (by decide) rfl rfl).trans rfl⟩

/-! ### Lemmas on `find` and the first delimiter -/

theorem find_from_eq_none (needle t : cstring) (i : Nat) (h : ¬ needle <:+: t) :
    find_from needle t i = none := by
  induction t generalizing i with
  | nil =>
    have hn : needle ≠ [] := by
      intro hn; apply h; rw [hn]
    simp [find_from, hn]
  | cons c t ih =>
    have hp : ¬ needle <+: c :: t := fun hp => h hp.isInfix
    have ht : ¬ needle <:+: t := by
      intro h2
      obtain ⟨l1, l2, h3⟩ := h2
      exact h ⟨c :: l1, l2, by simp [← h3]⟩
    rw [find_from, if_neg hp, ih (i + 1) ht]

theorem cstring.find_eq_none (s needle : cstring) (pos : Nat) (h : ¬ needle <:+: s) :
    cstring.find s needle pos = none := by
  unfold cstring.find
  split
  · rfl
  · apply find_from_eq_none
    intro h2
    exact h (h2.trans (List.drop_suffix pos s).isInfix)

theorem find_from_first (needle : cstring) (n : Nat) :
    ∀ (t : cstring) (i : Nat), needle <+: t.drop n →
      (∀ q, q < n → ¬ needle <+: t.drop q) → find_from needle t i = some (i + n) := by
  induction n with
  | zero =>
    intro t i hp _
    rw [List.drop_zero] at hp
    cases t with
    | nil =>
      have : needle = [] := List.prefix_nil.1 hp
      simp [find_from, this]
    | cons c t => simp [find_from, hp]
  | succ n ih =>
    intro t i hp hq
    cases t with
    | nil =>
      exfalso
      apply hq 0 (Nat.succ_pos n)
      simpa using hp
    | cons c t =>
      have h0 : ¬ needle <+: c :: t := by simpa using hq 0 (Nat.succ_pos n)
      have hp2 : needle <+: t.drop n := by simpa using hp
      have hq2 : ∀ q, q < n → ¬ needle <+: t.drop q := by
        intro q hlt
        simpa using hq (q + 1) (Nat.succ_lt_succ hlt)
      rw [find_from, if_neg h0, ih t (i + 1) hp2 hq2]
      congr 1
      omega

theorem cstring.find_first (s needle : cstring) (p : Nat) (hp : needle <+: s.drop p)
    (hq : ∀ q, q < p → ¬ needle <+: s.drop q) :
    cstring.find s needle 0 = some p := by
  have hlen : ¬ s.length < 0 := Nat.not_lt_zero _
  have := find_from_first needle p s 0 hp hq
  rw [cstring.find, if_neg hlen, List.drop_zero, this]
  simp

theorem find_from_spec (needle : cstring) :
    ∀ (t : cstring) (i p : Nat), find_from needle t i = some p →
      ∃ n, p = i + n ∧ needle <+: t.drop n ∧ ∀ q, q < n → ¬ needle <+: t.drop q := by
  intro t
  induction t with
  | nil =>
    intro i p h
    by_cases hn : needle = []
    · simp only [find_from, hn, if_true, Option.some.injEq] at h
      exact ⟨0, by omega, by simp [hn], by intro q hq; omega⟩
    · simp [find_from, hn] at h
  | cons c t ih =>
    intro i p h
    by_cases hp : needle <+: c :: t
    · simp only [find_from, hp, if_true, Option.some.injEq] at h
      exact ⟨0, by omega, by simpa using hp, by intro q hq; omega⟩
    · simp only [find_from, hp, if_false] at h
      obtain ⟨n, h1, h2, h3⟩ := ih (i + 1) p h
      refine ⟨n + 1, by omega, by simpa using h2, ?_⟩
      intro q hq
      cases q with
      | zero => simpa using hp
      | succ q => simpa using h3 q (by omega)

theorem cstring.find_spec (s needle : cstring) (p : Nat)
    (h : cstring.find s needle 0 = some p) :
    needle <+: s.drop p ∧ ∀ q, q < p → ¬ needle <+: s.drop q := by
  have hlen : ¬ s.length < 0 := Nat.not_lt_zero _
  rw [cstring.find, if_neg hlen, List.drop_zero] at h
  obtain ⟨n, h1, h2, h3⟩ := find_from_spec needle s 0 p h
  have : p = n := by omega
  subst this
  exact ⟨h2, h3⟩

theorem cstring.find_of_infix (s needle : cstring) (h : needle <:+: s) :
    ∃ p, cstring.find s needle 0 = some p := by
  cases hf : cstring.find s needle 0 with
  | some p => exact ⟨p, rfl⟩
  | none =>
    exfalso
    have hlen : ¬ s.length < 0 := Nat.not_lt_zero _
    rw [cstring.find, if_neg hlen, List.drop_zero] at hf
    clear hlen
    revert hf
    generalize 0 = i
    induction s generalizing i with
    | nil =>
      have : needle = [] := List.infix_nil.1 h
      simp [find_from, this]
    | cons c t ih =>
      intro hf
      by_cases hp : needle <+: c :: t
      · simp [find_from, hp] at hf
      · simp only [find_from, hp, if_false] at hf
        obtain ⟨l1, l2, h3⟩ := h
        cases l1 with
        | nil => exact hp ⟨l2, by simpa using h3⟩
        | cons c2 l1 =>
          have h4 : l1 ++ needle ++ l2 = t := by
            simp only [List.cons_append, List.cons.injEq] at h3
            exact h3.2
          exact ih ⟨l1, l2, h4⟩ (i + 1) hf

theorem cstring.find_here (s needle : cstring) (p : Nat) (hp : needle <+: s.drop p)
    (hlen : p ≤ s.length) : cstring.find s needle p = some p := by
  have := find_from_first needle 0 (s.drop p) p (by simpa using hp)
    (by intro q hq; omega)
  rw [cstring.find, if_neg (Nat.not_lt.2 hlen), this]
  rfl

theorem dict.split_loop_extends (key : cstring) :
    ∀ (fuel offset : Nat) (pos : Option Nat) (keys ks : List cstring),
      dict.split_loop key fuel offset pos keys = .ok ks → keys <+: ks := by
  intro fuel
  induction fuel with
  | zero =>
    intro offset pos keys ks h
    cases pos with
    | none =>
      rw [dict.split_loop_done] at h
      cases h
      exact List.prefix_refl _
    | some p => simp [dict.split_loop] at h
  | succ fuel ih =>
    intro offset pos keys ks h
    cases pos with
    | none =>
      rw [dict.split_loop_done] at h
      cases h
      exact List.prefix_refl _
    | some p =>
      cases hs : cstring.substr key offset p with
      | none => simp [dict.split_loop, hs] at h
      | some segment =>
        rw [dict.split_loop_step key fuel offset p keys segment _ hs rfl] at h
        exact (List.prefix_append keys [segment]).trans (ih _ _ _ _ h)

/-- The splitting loop on a path whose first delimiter is at `p`: at least two
keys, the first the text before the delimiter, the second the `p`
characters that follow the delimiter. -/
theorem dict.split_of_first (path : cstring) (p : Nat) (hp : delimiter <+: path.drop p)
    (hq : ∀ q, q < p → ¬ delimiter <+: path.drop q) :
    ∃ rest, dict.split path
      = .ok (path.take p :: (path.drop (p + 2)).take p :: rest) := by
  have hd : delimiter.length = 2 := rfl
  have hlen : p + 2 ≤ path.length := by
    have := hp.length_le
    rw [hd, List.length_drop] at this
    omega
  obtain ⟨ks, hks⟩ := dict.split_total path
  have hfind := cstring.find_first path delimiter p hp hq
  obtain ⟨fuel, hfuel⟩ : ∃ fuel, path.length + 1 = fuel + 1 + 1 := ⟨path.length - 1, by omega⟩
  have s1 : cstring.substr path 0 p = some (path.take p) := by
    simp [cstring.substr]
  have f1 : cstring.find path delimiter (0 + p) = some p := by
    rw [Nat.zero_add]
    exact cstring.find_here path delimiter p hp (by omega)
  have s2 : cstring.substr path (0 + p + 2) p = some ((path.drop (p + 2)).take p) := by
    have : ¬ path.length < 0 + p + 2 := by omega
    rw [cstring.substr, if_neg this, Nat.zero_add]
  have h := hks
  rw [dict.split, hfind, hfuel, dict.split_loop_step _ _ _ _ _ _ _ s1 f1,
    dict.split_loop_step _ _ _ _ _ _ _ s2 rfl] at h
  obtain ⟨rest, hrest⟩ := dict.split_loop_extends _ _ _ _ _ _ h
  refine ⟨rest, ?_⟩
  rw [hks, ← hrest]
  rfl

theorem dict.get_recursive_of_two_keys (fo : float_ops) (d : dict) (path : key_type)
    (out : mapped_type) (first second : cstring) (rest : List cstring)
    (h : dict.split path = .ok (first :: second :: rest)) :
    ∃ r, dict.get_recursive fo d path out = .ok r := by
  simp only [dict.get_recursive, h]
  cases hg : dict.get_dict fo d first dict.empty with
  | mk b temp =>
    cases b with
    | false => exact ⟨_, rfl⟩
    | true =>
      obtain ⟨back, hback⟩ : ∃ back, (second :: rest).getLast? = some back :=
        ⟨(second :: rest).getLast (by simp), List.getLast?_eq_getLast _ _⟩
      simp only [hback]
      cases dict.walk fo temp (second :: rest).dropLast with
      | none => exact ⟨_, rfl⟩
      | some inner => exact ⟨_, rfl⟩

theorem dict.get_recursive_first_miss (fo : float_ops) (d : dict) (path : key_type)
    (out : mapped_type) (first : cstring) (rest : List cstring)
    (h : dict.split path = .ok (first :: rest))
    (hmiss : ∀ n, dict.find_second d first ≠ some (.NestedDict n)) :
    dict.get_recursive fo d path out = .ok (false, out) := by
  have hg : dict.get_dict fo d first dict.empty = (false, dict.empty) := by
    rw [dict.get_dict_eq]
    cases hf : dict.find_second d first with
    | none => rfl
    | some v =>
      cases v with
      | NestedDict n => exact absurd hf (hmiss n)
      | _ => rfl
  simp only [dict.get_recursive, h, hg]

/-- C11. On a path that does not contain `"::"`, `get_recursive(path, out)` returns
the same `bool` and leaves `out` in the same state as `get(path, out)`, for
every dictionary and every kind of output. -/
theorem get_recursive_without_delimiter (fo : float_ops) (d : dict) (path : key_type)
    (out : mapped_type) (h : ¬ delimiter <:+: path) :
    dict.get_recursive fo d path out = .ok (dict.get fo d path out) := by
  have hf := cstring.find_eq_none path delimiter 0 h
  simp only [dict.get_recursive, dict.split, hf, dict.split_loop_done]

/-- Witness of C11: the call `get_recursive("v", r)` of `main.cpp`, on a dictionary
that holds a list of three empty dictionaries under `v`. -/
theorem get_recursive_without_delimiter_witness :
    ¬ delimiter <:+: ['v'] ∧
    dict.get_recursive float_ops.whole
      [(['i'], .Int 5), (['v'], .ListOfNestedDict [dict.empty, dict.empty, dict.empty])]
      ['v'] (.ListOfNestedDict []) = .ok (true, .ListOfNestedDict [[], [], []]) :=
  ⟨by decide,
    (get_recursive_without_delimiter float_ops.whole _ ['v'] (.ListOfNestedDict [])
      (by decide)).trans rfl⟩

/-- C12. On a path that contains `"::"`, its first occurrence at index `p`, when the
text before it is not a key of `d`, or is a key that holds a value of
another kind than `NestedDict`, `get_recursive` returns false, and leaves
the output as it was, whatever follows in the path. -/
theorem get_recursive_first_segment_miss (fo : float_ops) (d : dict) (path : key_type)
    (out : mapped_type) (p : Nat) (hp : delimiter <+: path.drop p)
    (hq : ∀ q, q < p → ¬ delimiter <+: path.drop q)
    (hmiss : dict.count d (path.take p) = 0 ∨
      ∃ v, dict.find_second d (path.take p) = some v ∧ v.kind_of ≠ kind.NestedDict) :
    dict.get_recursive fo d path out = .ok (false, out) := by
  obtain ⟨rest, hsplit⟩ := dict.split_of_first path p hp hq
  apply dict.get_recursive_first_miss fo d path out _ _ hsplit
  intro n hn
  rcases hmiss with h0 | ⟨v, hv, hk⟩
  · rw [dict.find_second_eq_none d _ h0] at hn
    cases hn
  · rw [hv] at hn
    cases hn
    exact hk rfl

/-- C20. On a path that contains `"::"` the splitting loop of `get_recursive` produces
at least two keys, the first of them the text before the first `"::"`;
hence the walk from the second key to the one before the last ranges over
a part of `keys` and the call does not run past the end of `keys`. -/
theorem split_gives_two_keys (path : key_type) (h : delimiter <:+: path) :
    ∃ p, (delimiter <+: path.drop p ∧ ∀ q, q < p → ¬ delimiter <+: path.drop q) ∧
      ∃ second rest, dict.split path = .ok (path.take p :: second :: rest) ∧
        ∀ (fo : float_ops) (d : dict) (out : mapped_type),
          dict.get_recursive fo d path out ≠ .error fault.past_the_end := by
  obtain ⟨p, hfind⟩ := cstring.find_of_infix path delimiter h
  have hspec := cstring.find_spec path delimiter p hfind
  obtain ⟨rest, hsplit⟩ := dict.split_of_first path p hspec.1 hspec.2
  refine ⟨p, hspec, _, rest, hsplit, ?_⟩
  intro fo d out
  obtain ⟨r, hr⟩ := dict.get_recursive_of_two_keys fo d path out _ _ _ hsplit
  rw [hr]
  simp

/-- Witness of C12: the path `a::b` on a dictionary that holds an `int` under `a`. -/
theorem get_recursive_first_segment_miss_witness :
    delimiter <+: ['a', ':', ':', 'b'].drop 1 ∧
    dict.get_recursive float_ops.whole [(['a'], .Int 1)] ['a', ':', ':', 'b'] (.Int 0)
      = .ok (false, .Int 0) :=
  ⟨by decide,
    get_recursive_first_segment_miss float_ops.whole [(['a'], .Int 1)] ['a', ':', ':', 'b']
      (.Int 0) 1 (by decide) (by decide) (Or.inr ⟨.Int 1, rfl, by decide⟩)⟩

/-- Witness of C20: the path `a::bc`, cut into two keys. -/
theorem split_gives_two_keys_witness :
    delimiter <:+: ['a', ':', ':', 'b', 'c'] ∧
    ∃ p, (delimiter <+: ['a', ':', ':', 'b', 'c'].drop p ∧
        ∀ q, q < p → ¬ delimiter <+: ['a', ':', ':', 'b', 'c'].drop q) ∧
      ∃ second rest,
        dict.split ['a', ':', ':', 'b', 'c'] = .ok (['a', ':', ':', 'b', 'c'].take p :: second :: rest) ∧
        ∀ (fo : float_ops) (d : dict) (out : mapped_type),
          dict.get_recursive fo d ['a', ':', ':', 'b', 'c'] out ≠ .error fault.past_the_end :=
  ⟨by decide, split_gives_two_keys ['a', ':', ':', 'b', 'c'] (by decide)⟩

/-! ### Lemmas on the vector loops -/

theorem details.vector_loop_eq_intercalate {α : Type} (cast : α → cstring) (v : List α) :
    details.vector_loop cast v = [',', ' '].intercalate (v.map cast) := by
  induction v with
  | nil => simp [details.vector_loop, List.intercalate]
  | cons x rest ih =>
    rw [details.vector_loop, ih]
    cases rest with
    | nil => simp [List.intercalate]
    | cons y rest2 => simp [List.intercalate, List.intersperse]

theorem details.dict_vector_loop_eq_intercalate (fo : float_ops) (v : List dict) :
    details.dict_vector_loop fo v = [',', ' '].intercalate (v.map (dict.str fo)) := by
  induction v with
  | nil => simp [details.dict_vector_loop, List.intercalate]
  | cons x rest ih =>
    rw [details.dict_vector_loop, ih]
    cases rest with
    | nil => simp [List.intercalate, dict.str]
    | cons y rest2 => simp [List.intercalate, List.intersperse, dict.str]

/-- C19. For a stored list, `get` into an empty string yields `"["`, the renderings
of the elements in order joined by `", "`, and `"]"`: the decimal numeral of
an `int`, the characters of a string, `1` or `0` for a `bool`, `str()` for a
dictionary; the empty list yields `"[]"` and the list 1, 2, 3 yields
`"[1, 2, 3]"`. -/
theorem get_list_into_empty_string (fo : float_ops) (d : dict) (k : key_type) :
    (∀ v : List Int, dict.get fo (dict.add d k (.ListInt v)) k (.String [])
      = (true, .String (['['] ++ [',', ' '].intercalate (v.map lexical_cast_int) ++ [']']))) ∧
    (∀ v : List cstring, dict.get fo (dict.add d k (.ListString v)) k (.String [])
      = (true, .String (['['] ++ [',', ' '].intercalate v ++ [']']))) ∧
    (∀ v : List Bool, dict.get fo (dict.add d k (.ListBool v)) k (.String [])
      = (true, .String (['['] ++ [',', ' '].intercalate
          (v.map (fun b => if b then ['1'] else ['0'])) ++ [']']))) ∧
    (∀ v : List dict, dict.get fo (dict.add d k (.ListOfNestedDict v)) k (.String [])
      = (true, .String (['['] ++ [',', ' '].intercalate (v.map (dict.str fo)) ++ [']']))) ∧
    (∀ v : List cfloat, dict.get fo (dict.add d k (.ListFloat v)) k (.String [])
      = (true, .String (['['] ++ [',', ' '].intercalate (v.map fo.lexical_cast) ++ [']']))) ∧
    dict.get fo (dict.add d k (.ListInt [])) k (.String []) = (true, .String ['[', ']']) ∧
    dict.get fo (dict.add d k (.ListInt [1, 2, 3])) k (.String [])
      = (true, .String ['[', '1', ',', ' ', '2', ',', ' ', '3', ']']) := by
  have hget : ∀ value, dict.get fo (dict.add d k value) k (.String [])
      = (true, .String (details.appended fo value)) := by
    intro value
    rw [dict.add, dict.get_add_impl]
    simp [details.get_visitor]
  refine ⟨?_, ?_, ?_, ?_, ?_, ?_, ?_⟩
  · intro v
    rw [hget, details.appended, details.vector_loop_eq_intercalate]
  · intro v
    rw [hget, details.appended, details.vector_loop_eq_intercalate,
      show (lexical_cast_string : cstring → cstring) = id from rfl, List.map_id]
  · intro v
    rw [hget, details.appended, details.vector_loop_eq_intercalate]
    rfl
  · intro v
    rw [hget, details.appended, details.dict_vector_loop_eq_intercalate]
  · intro v
    rw [hget, details.appended, details.vector_loop_eq_intercalate]
  · rw [hget]; rfl
  · rw [hget]; rfl

/-! ### Lemmas on `erase` and `find` -/

theorem dict.filter_of_not_mem (d : dict) (key : key_type) (h : key ∉ dict.keys d) :
    d.filter (fun e => !(e.1 == key)) = d := by
  rw [List.filter_eq_self]
  intro e he
  have : e.1 ≠ key := by
    intro h2
    apply h
    rw [← h2]
    exact List.mem_map_of_mem Prod.fst he
  simp [this]

theorem dict.split_at_key (d : dict) (key : key_type) (hu : dict.unique_keys d)
    (h : key ∈ dict.keys d) :
    ∃ before value after, d = before ++ (key, value) :: after ∧
      key ∉ dict.keys before ∧ key ∉ dict.keys after := by
  induction d with
  | nil => simp [dict.keys] at h
  | cons e rest ih =>
    have hu2 : (e.1 :: dict.keys rest).Nodup := hu
    rw [List.nodup_cons] at hu2
    by_cases h2 : e.1 = key
    · refine ⟨[], e.2, rest, ?_, by simp [dict.keys], ?_⟩
      · rw [← h2]; rfl
      · rw [← h2]; exact hu2.1
    · have h3 : key ∈ dict.keys rest := by
        have h4 : key = e.1 ∨ key ∈ dict.keys rest := by simpa [dict.keys] using h
        rcases h4 with h4 | h4
        · exact absurd h4.symm h2
        · exact h4
      obtain ⟨before, value, after, h5, h6, h7⟩ := ih hu2.2 h3
      refine ⟨e :: before, value, after, by rw [h5]; rfl, ?_, h7⟩
      intro h8
      have h9 : key = e.1 ∨ key ∈ dict.keys before := by simpa [dict.keys] using h8
      rcases h9 with h9 | h9
      · exact h2 h9.symm
      · exact h6 h9

theorem dict.find_le_size (d : dict) (key : key_type) : dict.find d key ≤ dict.size d := by
  induction d with
  | nil => simp [dict.find, dict.size]
  | cons e rest ih =>
    simp only [dict.size] at ih
    by_cases h : e.1 = key
    · simp [dict.find, dict.size, h]
    · simp only [dict.find, h, if_false, dict.size, List.length_cons]
      omega

theorem dict.find_eq_size_iff (d : dict) (key : key_type) :
    dict.find d key = dict.size d ↔ key ∉ dict.keys d := by
  induction d with
  | nil => simp [dict.find, dict.size, dict.keys]
  | cons e rest ih =>
    simp only [dict.size, dict.keys] at ih
    by_cases h : e.1 = key
    · simp [dict.find, dict.size, dict.keys, h]
    · have h2 : ¬ key = e.1 := fun h3 => h h3.symm
      simp only [dict.find, h, if_false, dict.size, List.length_cons, dict.keys, List.map_cons,
        List.mem_cons, h2, false_or]
      exact ⟨fun h3 => ih.1 (by omega), fun h3 => by have := ih.2 h3; omega⟩

theorem dict.find_replace (d : dict) (key : key_type) (value : mapped_type) :
    dict.find (dict.replace d key (key, value)) key = dict.find d key := by
  induction d with
  | nil => rfl
  | cons e rest ih =>
    by_cases h : e.1 = key
    · simp [dict.replace, dict.find, h]
    · simp [dict.replace, dict.find, h, ih]

/-- C16. For a key that `d` does not hold, `erase(k)` returns 0 and leaves `d` as it
was; for a key that `d` holds it returns 1 and leaves the sequence of `d`
without the element of key `k`, the other elements in their order with
their values, so that `count(k)` is 0 afterwards. -/
theorem erase_by_key (d : dict) (k : key_type) (hu : dict.unique_keys d) :
    (dict.count d k = 0 → dict.erase d k = (0, d)) ∧
    (dict.count d k ≠ 0 →
      (dict.erase d k).1 = 1 ∧
      (∃ before value after, d = before ++ (k, value) :: after ∧
        (dict.erase d k).2 = before ++ after) ∧
      dict.count (dict.erase d k).2 k = 0 ∧
      dict.unique_keys (dict.erase d k).2) := by
  constructor
  · intro h
    have hm := (dict.count_eq_zero_iff d k).1 h
    simp [dict.erase, h, dict.filter_of_not_mem d k hm]
  · intro h
    have hm := (dict.count_ne_zero_iff d k).1 h
    obtain ⟨before, value, after, h1, h2, h3⟩ := dict.split_at_key d k hu hm
    have hb := dict.filter_of_not_mem before k h2
    have ha := dict.filter_of_not_mem after k h3
    have hcb := (dict.count_eq_zero_iff before k).2 h2
    have hca := (dict.count_eq_zero_iff after k).2 h3
    have herase : (dict.erase d k).2 = before ++ after := by
      simp [dict.erase, h1, List.filter_append, List.filter_cons, hb, ha]
    refine ⟨?_, ⟨before, value, after, h1, herase⟩, ?_, ?_⟩
    · simp only [dict.count] at hcb hca
      simp [dict.erase, dict.count, h1, List.countP_append, List.countP_cons, hcb, hca]
    · rw [herase]
      simp only [dict.count] at hcb hca ⊢
      simp [List.countP_append, hcb, hca]
    · rw [herase]
      have hu3 : (dict.keys (before ++ (k, value) :: after)).Nodup := by rw [← h1]; exact hu
      simp only [dict.unique_keys, dict.keys, List.map_append, List.map_cons] at hu3 ⊢
      exact hu3.sublist (List.Sublist.append_left (List.sublist_cons_self _ _) _)

/-- Witness of C16: the key `b` erased from a dictionary of the keys `a`, `b`, `c`. -/
theorem erase_by_key_witness :
    dict.erase [(['a'], .Int 1), (['b'], .Int 2), (['c'], .Int 3)] ['b']
      = (1, [(['a'], .Int 1), (['c'], .Int 3)]) ∧
    dict.count (dict.erase [(['a'], .Int 1), (['b'], .Int 2), (['c'], .Int 3)] ['b']).2 ['b']
      = 0 ∧
    dict.erase [(['a'], .Int 1), (['b'], .Int 2), (['c'], .Int 3)] ['x']
      = (0, [(['a'], .Int 1), (['b'], .Int 2), (['c'], .Int 3)]) :=
  ⟨rfl,
    ((erase_by_key [(['a'], .Int 1), (['b'], .Int 2), (['c'], .Int 3)] ['b'] (by decide)).2
      (by decide)).2.2.1,
    (erase_by_key [(['a'], .Int 1), (['b'], .Int 2), (['c'], .Int 3)] ['x'] (by decide)).1
      (by decide)⟩

/-- C18 on the code: a `long` is not an alternative of the variant, and the first
alternative to which it converts is `float`; `add` stores it under the kind
`Float`, not `Int`. -/
theorem add_long_is_stored_as_float :
    dict_supports .long = false ∧ dict_implicitly_supports .long = true ∧
    find_convertible dict.types .long = some kind.Float ∧
    dict.add_kind .long = some kind.Float ∧ dict.add_kind .long ≠ some kind.Int ∧
    dict.add_kind .int = some kind.Int ∧ dict.add_kind .double = some kind.Float := by
  decide

/-! ### Lexicographic comparison of sequences -/

theorem lexicographical_compare_cons {α : Type} (less : α → α → Bool) (x y : α)
    (xs ys : List α) :
    lexicographical_compare less (x :: xs) (y :: ys) = true
      ↔ less x y = true ∨ (¬ less y x = true ∧ lexicographical_compare less xs ys = true) := by
  rw [lexicographical_compare]
  cases less x y <;> cases less y x <;> simp

theorem lexicographical_compare_nil_right {α : Type} (less : α → α → Bool) (l : List α) :
    ¬ lexicographical_compare less l [] = true := by
  cases l <;> simp [lexicographical_compare]

theorem lexicographical_compare_nil_cons {α : Type} (less : α → α → Bool) (y : α)
    (ys : List α) : lexicographical_compare less [] (y :: ys) = true := by
  simp [lexicographical_compare]

theorem sequence_equal_cons {α : Type} (equal : α → α → Bool) (x y : α) (xs ys : List α) :
    sequence_equal equal (x :: xs) (y :: ys) = true
      ↔ equal x y = true ∧ sequence_equal equal xs ys = true := by
  simp [sequence_equal]

theorem ordered_at_nil {α : Type} (S : α → Prop) (less equal : α → α → Bool) :
    ordered_at (fun l : List α => ∀ a ∈ l, S a) (lexicographical_compare less)
      (sequence_equal equal) [] := by
  intro ys zs _ _
  have h0 := lexicographical_compare_nil_right less
  cases ys with
  | nil =>
    cases zs with
    | nil => simp [lexicographical_compare, sequence_equal]
    | cons z zs => simp [lexicographical_compare, sequence_equal]
  | cons y ys =>
    cases zs with
    | nil => simp [lexicographical_compare, sequence_equal]
    | cons z zs => simp [lexicographical_compare, sequence_equal]

theorem lex_step_asym (a1 a2 Lxy Lyx : Prop) (A1 : a1 → ¬a2) (LA1 : Lxy → ¬Lyx) :
    (a1 ∨ (¬a2 ∧ Lxy)) → ¬ (a2 ∨ (¬a1 ∧ Lyx)) := by tauto

theorem lex_step_equal (a1 a2 e Lxy Lyx E : Prop) (E1 : e ↔ ¬a1 ∧ ¬a2)
    (LE1 : E ↔ ¬Lxy ∧ ¬Lyx) :
    (e ∧ E) ↔ ¬(a1 ∨ (¬a2 ∧ Lxy)) ∧ ¬(a2 ∨ (¬a1 ∧ Lyx)) := by tauto

theorem lex_step_cotrans (pr rp pq qp qr rq Lpr Lpq Lqr : Prop)
    (h1 : pr → pq ∨ qr) (h2 : qp → qr ∨ rp) (h3 : rq → rp ∨ pq)
    (hl : Lpr → Lpq ∨ Lqr) :
    (pr ∨ (¬rp ∧ Lpr)) → (pq ∨ (¬qp ∧ Lpq)) ∨ (qr ∨ (¬rq ∧ Lqr)) := by tauto

theorem ordered_at_cons {α : Type} (S : α → Prop) (less equal : α → α → Bool) (x : α)
    (xs : List α) (hx : ordered_at S less equal x)
    (hxs : ordered_at (fun l : List α => ∀ a ∈ l, S a) (lexicographical_compare less)
      (sequence_equal equal) xs) :
    ordered_at (fun l : List α => ∀ a ∈ l, S a) (lexicographical_compare less)
      (sequence_equal equal) (x :: xs) := by
  intro ys zs hys hzs
  have key : ∀ (y : α) (ys : List α), S y → (∀ a ∈ ys, S a) →
      (lexicographical_compare less (x :: xs) (y :: ys) = true →
        ¬ lexicographical_compare less (y :: ys) (x :: xs) = true) ∧
      (sequence_equal equal (x :: xs) (y :: ys) = true ↔
        ¬ lexicographical_compare less (x :: xs) (y :: ys) = true ∧
        ¬ lexicographical_compare less (y :: ys) (x :: xs) = true) := by
    intro y ys hSy hSys
    obtain ⟨A1, E1, -, -, -⟩ := hx y y hSy hSy
    obtain ⟨LA1, LE1, -, -, -⟩ := hxs ys ys hSys hSys
    simp only [lexicographical_compare_cons, sequence_equal_cons]
    exact ⟨lex_step_asym _ _ _ _ A1 LA1, lex_step_equal _ _ _ _ _ _ E1 LE1⟩
  have hnil := lexicographical_compare_nil_right less
  cases ys with
  | nil =>
    refine ⟨fun h => absurd h (hnil _), ?_, fun h => Or.inr ?_, fun h => ?_,
      fun h => absurd h (hnil _)⟩
    · simp [lexicographical_compare, sequence_equal]
    · cases zs with
      | nil => exact absurd h (hnil _)
      | cons z zs => exact lexicographical_compare_nil_cons less z zs
    · cases zs with
      | nil => exact Or.inr h
      | cons z zs => exact Or.inl (lexicographical_compare_nil_cons less z zs)
  | cons y ys =>
    have hSy : S y := hys y (List.mem_cons_self _ _)
    have hSys : ∀ a ∈ ys, S a := fun a ha => hys a (List.mem_cons_of_mem _ ha)
    refine ⟨(key y ys hSy hSys).1, (key y ys hSy hSys).2, ?_, ?_, ?_⟩
    · cases zs with
      | nil => exact fun h => absurd h (hnil _)
      | cons z zs =>
        have hSz : S z := hzs z (List.mem_cons_self _ _)
        have hSzs : ∀ a ∈ zs, S a := fun a ha => hzs a (List.mem_cons_of_mem _ ha)
        obtain ⟨-, -, C3, C4, C5⟩ := hx y z hSy hSz
        obtain ⟨-, -, LC3, -, -⟩ := hxs ys zs hSys hSzs
        simp only [lexicographical_compare_cons]
        exact lex_step_cotrans _ _ _ _ _ _ _ _ _ C3 C4 C5 LC3
    · cases zs with
      | nil => exact fun _ => Or.inr (lexicographical_compare_nil_cons less x xs)
      | cons z zs =>
        have hSz : S z := hzs z (List.mem_cons_self _ _)
        have hSzs : ∀ a ∈ zs, S a := fun a ha => hzs a (List.mem_cons_of_mem _ ha)
        obtain ⟨-, -, C3, C4, C5⟩ := hx y z hSy hSz
        obtain ⟨-, -, -, LC4, -⟩ := hxs ys zs hSys hSzs
        simp only [lexicographical_compare_cons]
        exact lex_step_cotrans _ _ _ _ _ _ _ _ _ C4 C5 C3 LC4
    · cases zs with
      | nil => exact fun _ => Or.inl (lexicographical_compare_nil_cons less x xs)
      | cons z zs =>
        have hSz : S z := hzs z (List.mem_cons_self _ _)
        have hSzs : ∀ a ∈ zs, S a := fun a ha => hzs a (List.mem_cons_of_mem _ ha)
        obtain ⟨-, -, C3, C4, C5⟩ := hx y z hSy hSz
        obtain ⟨-, -, -, -, LC5⟩ := hxs ys zs hSys hSzs
        simp only [lexicographical_compare_cons]
        exact lex_step_cotrans _ _ _ _ _ _ _ _ _ C5 C3 C4 LC5

/-- The lexicographic comparison of sequences whose elements are ordered. -/
theorem ordered_at_list {α : Type} (S : α → Prop) (less equal : α → α → Bool)
    (l : List α) (h : ∀ x ∈ l, ordered_at S less equal x) :
    ordered_at (fun l : List α => ∀ a ∈ l, S a) (lexicographical_compare less)
      (sequence_equal equal) l := by
  induction l with
  | nil => exact ordered_at_nil S less equal
  | cons x xs ih =>
    exact ordered_at_cons S less equal x xs (h x (List.mem_cons_self _ _))
      (ih (fun a ha => h a (List.mem_cons_of_mem _ ha)))

theorem ordered_at_congr {α : Type} (S S2 : α → Prop) (less less2 equal equal2 : α → α → Bool)
    (x : α) (hS : ∀ a, S2 a → S a) (hl : ∀ a b, less2 a b = less a b)
    (he : ∀ a b, equal2 a b = equal a b) (h : ordered_at S less equal x) :
    ordered_at S2 less2 equal2 x := by
  intro y z hy hz
  simp only [hl, he]
  exact h y z (hS y hy) (hS z hz)

/-- A comparison that follows a key in a linear order is ordered. -/
theorem ordered_at_of_key {α β : Type} [LinearOrder β] (S : α → Prop)
    (less equal : α → α → Bool) (key : α → β)
    (hl : ∀ a b, S a → S b → (less a b = true ↔ key a < key b))
    (he : ∀ a b, S a → S b → (equal a b = true ↔ key a = key b))
    (x : α) (hx : S x) : ordered_at S less equal x := by
  intro y z hy hz
  rw [hl x y hx hy, hl y x hy hx, hl x z hx hz, hl y z hy hz, hl z x hz hx, hl z y hz hy,
    he x y hx hy]
  refine ⟨fun h => not_lt.2 h.le, ?_, ?_, ?_, ?_⟩
  · constructor
    · intro h; rw [h]; exact ⟨lt_irrefl _, lt_irrefl _⟩
    · intro h; exact le_antisymm (not_lt.1 h.2) (not_lt.1 h.1)
  · intro h
    rcases lt_or_le (key x) (key y) with h2 | h2
    · exact Or.inl h2
    · exact Or.inr (lt_of_le_of_lt h2 h)
  · intro h
    rcases lt_or_le (key y) (key z) with h2 | h2
    · exact Or.inl h2
    · exact Or.inr (lt_of_le_of_lt h2 h)
  · intro h
    rcases lt_or_le (key z) (key x) with h2 | h2
    · exact Or.inl h2
    · exact Or.inr (lt_of_le_of_lt h2 h)

theorem int_ordered (x : Int) :
    ordered_at (fun _ => True) int_less (fun a b => decide (a = b)) x :=
  ordered_at_of_key _ _ _ id (by intro a b _ _; simp [int_less])
    (by intro a b _ _; simp) x trivial

theorem char_ordered (x : Char) :
    ordered_at (fun _ => True) char_less (fun a b => decide (a = b)) x :=
  ordered_at_of_key _ _ _ Char.toNat (by intro a b _ _; simp [char_less])
    (by
      intro a b _ _
      simp only [decide_eq_true_eq]
      constructor
      · intro h; rw [h]
      · intro h
        exact Char.ext (UInt32.ext (by simpa [Char.toNat, UInt32.toNat] using h)))
    x trivial

theorem bool_ordered (x : Bool) :
    ordered_at (fun _ => True) bool_less (fun a b => decide (a = b)) x :=
  ordered_at_of_key _ _ _ (fun b => cond b 1 0)
    (by intro a b _ _; cases a <;> cases b <;> simp [bool_less])
    (by intro a b _ _; cases a <;> cases b <;> simp) x trivial

theorem sequence_equal_decide {α : Type} [DecidableEq α] (a b : List α) :
    sequence_equal (fun x y => decide (x = y)) a b = decide (a = b) := by
  induction a generalizing b with
  | nil => cases b <;> simp [sequence_equal]
  | cons x xs ih =>
    cases b with
    | nil => simp [sequence_equal]
    | cons y ys =>
      rw [sequence_equal, ih]
      by_cases h1 : x = y <;> by_cases h2 : xs = ys <;> simp [h1, h2]

/-- Sequences of elements that are ordered everywhere, compared
lexicographically and by `=`. -/
theorem list_ordered {α : Type} [DecidableEq α] (less : α → α → Bool)
    (h : ∀ x, ordered_at (fun _ => True) less (fun a b => decide (a = b)) x) (l : List α) :
    ordered_at (fun _ => True) (lexicographical_compare less) (fun a b => decide (a = b)) l :=
  ordered_at_congr _ _ _ _ _ _ l (fun _ _ _ _ => trivial) (fun _ _ => rfl)
    (fun a b => (sequence_equal_decide a b).symm)
    (ordered_at_list (fun _ => True) less (fun a b => decide (a = b)) l (fun x _ => h x))

theorem string_ordered (x : cstring) :
    ordered_at (fun _ => True) string_less (fun a b => decide (a = b)) x :=
  list_ordered char_less char_ordered x

/-! ### The comparisons of the variant and of the dictionary -/

/-- The comparison of pairs, the key first, is ordered when the values are. -/
theorem pair_ordered {β : Type} (S : β → Prop) (less equal : β → β → Bool) (k : cstring)
    (v : β) (hv : ordered_at S less equal v) :
    ordered_at (fun e : cstring × β => S e.2)
      (fun x y => string_less x.1 y.1 || (!string_less y.1 x.1 && less x.2 y.2))
      (fun x y => decide (x.1 = y.1) && equal x.2 y.2) (k, v) := by
  intro y z hy hz
  obtain ⟨A1, E1, C3, C4, C5⟩ := string_ordered k y.1 z.1 trivial trivial
  obtain ⟨LA1, LE1, LC3, LC4, LC5⟩ := hv y.2 z.2 hy hz
  simp only [Bool.or_eq_true, Bool.and_eq_true, Bool.not_eq_true', decide_eq_true_eq,
    ← Bool.not_eq_true] at A1 E1 C3 C4 C5 ⊢
  exact ⟨lex_step_asym _ _ _ _ A1 LA1, lex_step_equal _ _ _ _ _ _ E1 LE1,
    lex_step_cotrans _ _ _ _ _ _ _ _ _ C3 C4 C5 LC3,
    lex_step_cotrans _ _ _ _ _ _ _ _ _ C4 C5 C3 LC4,
    lex_step_cotrans _ _ _ _ _ _ _ _ _ C5 C3 C4 LC5⟩

/-- A comparison by a tag first, then by a comparison of the values of one
tag, is ordered at `x` when the values of the tag of `x` are. -/
theorem tagged_ordered {α : Type} (S : α → Prop) (less equal : α → α → Bool) (tag : α → Nat)
    (hl : ∀ a b, tag a ≠ tag b → (less a b = true ↔ tag a < tag b))
    (he : ∀ a b, tag a ≠ tag b → ¬ equal a b = true) (x : α)
    (hx : ∀ y z, S y → S z → tag y = tag x → tag z = tag x →
      (less x y = true → ¬ less y x = true) ∧
      (equal x y = true ↔ ¬ less x y = true ∧ ¬ less y x = true) ∧
      (less x z = true → less x y = true ∨ less y z = true) ∧
      (less y x = true → less y z = true ∨ less z x = true) ∧
      (less z y = true → less z x = true ∨ less x y = true)) :
    ordered_at S less equal x := by
  intro y z hy hz
  by_cases hty : tag y = tag x
  · by_cases htz : tag z = tag x
    · exact hx y z hy hz hty htz
    · obtain ⟨A, E, -, -, -⟩ := hx y y hy hy hty hty
      have hxz : tag x ≠ tag z := fun h => htz h.symm
      have hyz : tag y ≠ tag z := fun h => htz (h.symm.trans hty)
      refine ⟨A, E, ?_, ?_, ?_⟩
      · rw [hl x z hxz, hl y z hyz]; intro h; right; omega
      · rw [hl y z hyz, hl z x htz]; intro _; omega
      · rw [hl z y (fun h => hyz h.symm), hl z x htz]; intro h; left; omega
  · have hxy : tag x ≠ tag y := fun h => hty h.symm
    have hE : (equal x y = true ↔ ¬ less x y = true ∧ ¬ less y x = true) := by
      rw [hl x y hxy, hl y x hty]
      constructor
      · intro h; exact absurd h (he x y hxy)
      · intro h; omega
    have hA : less x y = true → ¬ less y x = true := by
      rw [hl x y hxy, hl y x hty]; omega
    by_cases htz : tag z = tag x
    · have hyz : tag y ≠ tag z := fun h => hty (h.trans htz)
      refine ⟨hA, hE, ?_, ?_, ?_⟩
      · rw [hl x y hxy, hl y z hyz]; intro _; omega
      · rw [hl y x hty, hl y z hyz]; intro h; left; omega
      · rw [hl z y (fun h => hyz h.symm), hl x y hxy]; intro h; right; omega
    · have hxz : tag x ≠ tag z := fun h => htz h.symm
      refine ⟨hA, hE, ?_, ?_, ?_⟩
      · rw [hl x z hxz, hl x y hxy]
        by_cases hyz : tag y = tag z
        · intro h; left; omega
        · rw [hl y z hyz]; intro _; omega
      · rw [hl y x hty, hl z x htz]
        by_cases hyz : tag y = tag z
        · intro h; right; omega
        · rw [hl y z hyz]; intro _; omega
      · rw [hl z x htz, hl x y hxy]
        by_cases hyz : tag z = tag y
        · intro _; omega
        · rw [hl z y hyz]; intro _; omega

theorem mapped_type.less_of_kind_ne (fc : float_order) (a b : mapped_type)
    (h : a.kind_of.index ≠ b.kind_of.index) :
    (mapped_type.less fc a b = true ↔ a.kind_of.index < b.kind_of.index) := by
  cases a <;> cases b <;>
    first
    | exact absurd rfl h
    | simp [mapped_type.less, mapped_type.less_both, mapped_type.kind_of, kind.index]

theorem mapped_type.equal_of_kind_ne (fc : float_order) (a b : mapped_type)
    (h : a.kind_of.index ≠ b.kind_of.index) : ¬ mapped_type.equal fc a b = true := by
  cases a <;> cases b <;>
    first
    | exact absurd rfl h
    | simp [mapped_type.equal]

mutual
theorem mapped_type.value_less_both_swap (fc : float_order) (a b : mapped_type) :
    mapped_type.less_both fc b a
      = ((mapped_type.less_both fc a b).2, (mapped_type.less_both fc a b).1) := by
  cases a with
  | NestedDict x =>
    cases b with
    | NestedDict y =>
      simp only [mapped_type.less_both]
      exact dict.less_both_swap fc x y
    | _ => simp [mapped_type.less_both, mapped_type.kind_of]
  | ListOfNestedDict x =>
    cases b with
    | ListOfNestedDict y =>
      simp only [mapped_type.less_both]
      exact details.dict_vector_less_both_swap fc x y
    | _ => simp [mapped_type.less_both, mapped_type.kind_of]
  | Float x => cases b <;> simp [mapped_type.less_both, mapped_type.kind_of]
  | Int x => cases b <;> simp [mapped_type.less_both, mapped_type.kind_of]
  | String x => cases b <;> simp [mapped_type.less_both, mapped_type.kind_of]
  | ListInt x => cases b <;> simp [mapped_type.less_both, mapped_type.kind_of]
  | ListFloat x => cases b <;> simp [mapped_type.less_both, mapped_type.kind_of]
  | ListString x => cases b <;> simp [mapped_type.less_both, mapped_type.kind_of]
  | ListBool x => cases b <;> simp [mapped_type.less_both, mapped_type.kind_of]
theorem dict.less_both_swap (fc : float_order) (a b : List (cstring × mapped_type)) :
    dict.less_both fc b a = ((dict.less_both fc a b).2, (dict.less_both fc a b).1) := by
  cases a with
  | nil => cases b <;> simp [dict.less_both]
  | cons e1 r1 =>
    cases b with
    | nil => simp [dict.less_both]
    | cons e2 r2 =>
      obtain ⟨k1, v1⟩ := e1
      obtain ⟨k2, v2⟩ := e2
      have hv := mapped_type.value_less_both_swap fc v1 v2
      have hr := dict.less_both_swap fc r1 r2
      simp only [dict.less_both, hv, hr]
      cases string_less k1 k2 <;> cases string_less k2 k1 <;>
        cases (mapped_type.less_both fc v1 v2).1 <;>
        cases (mapped_type.less_both fc v1 v2).2 <;> simp
theorem details.dict_vector_less_both_swap (fc : float_order)
    (a b : List (List (cstring × mapped_type))) :
    details.dict_vector_less_both fc b a
      = ((details.dict_vector_less_both fc a b).2, (details.dict_vector_less_both fc a b).1) := by
  cases a with
  | nil => cases b <;> simp [details.dict_vector_less_both]
  | cons x xs =>
    cases b with
    | nil => simp [details.dict_vector_less_both]
    | cons y ys =>
      have hv := dict.less_both_swap fc x y
      have hr := details.dict_vector_less_both_swap fc xs ys
      simp only [details.dict_vector_less_both, hv, hr]
      cases (dict.less_both fc x y).1 <;> cases (dict.less_both fc x y).2 <;> simp
end

/-- The `operator<` of `dict` is `std::lexicographical_compare` with the `operator<` of
the pairs. -/
theorem dict.less_eq_lexicographical (fc : float_order) (a b : dict) :
    dict.less fc a b = lexicographical_compare (value_type.less fc) a b := by
  induction a generalizing b with
  | nil => cases b <;> simp [dict.less, dict.less_both, lexicographical_compare]
  | cons e1 r1 ih =>
    cases b with
    | nil => simp [dict.less, dict.less_both, lexicographical_compare]
    | cons e2 r2 =>
      obtain ⟨k1, v1⟩ := e1
      obtain ⟨k2, v2⟩ := e2
      have hv := mapped_type.value_less_both_swap fc v1 v2
      have ih2 := ih r2
      simp only [dict.less] at ih2
      simp only [dict.less, dict.less_both, lexicographical_compare, value_type.less,
        mapped_type.less, hv, ← ih2]
      cases string_less k1 k2 <;> cases string_less k2 k1 <;>
        cases (mapped_type.less_both fc v1 v2).1 <;>
        cases (mapped_type.less_both fc v1 v2).2 <;> simp

theorem details.dict_vector_less_eq_lexicographical (fc : float_order) (a b : List dict) :
    (details.dict_vector_less_both fc a b).1 = lexicographical_compare (dict.less fc) a b := by
  induction a generalizing b with
  | nil => cases b <;> simp [details.dict_vector_less_both, lexicographical_compare]
  | cons x xs ih =>
    cases b with
    | nil => simp [details.dict_vector_less_both, lexicographical_compare]
    | cons y ys =>
      have hv := dict.less_both_swap fc x y
      simp only [details.dict_vector_less_both, lexicographical_compare, dict.less, hv,
        ← ih ys]
      cases (dict.less_both fc x y).1 <;> cases (dict.less_both fc x y).2 <;> simp

theorem dict.equal_eq_sequence_equal (fc : float_order) (a b : dict) :
    dict.equal fc a b = sequence_equal (value_type.equal fc) a b := by
  induction a generalizing b with
  | nil => cases b <;> simp [dict.equal, sequence_equal]
  | cons e1 r1 ih =>
    cases b with
    | nil => simp [dict.equal, sequence_equal]
    | cons e2 r2 =>
      obtain ⟨k1, v1⟩ := e1
      obtain ⟨k2, v2⟩ := e2
      simp [dict.equal, sequence_equal, value_type.equal, ih r2]

theorem details.dict_vector_equal_eq_sequence_equal (fc : float_order) (a b : List dict) :
    details.dict_vector_equal fc a b = sequence_equal (dict.equal fc) a b := by
  induction a generalizing b with
  | nil => cases b <;> simp [details.dict_vector_equal, sequence_equal]
  | cons x xs ih =>
    cases b with
    | nil => simp [details.dict_vector_equal, sequence_equal]
    | cons y ys => simp [details.dict_vector_equal, sequence_equal, ih ys]

theorem dict.floats_all_iff (ok : cfloat → Bool) (d : dict) :
    dict.floats_all ok d = true ↔ ∀ e ∈ d, mapped_type.floats_all ok e.2 = true := by
  induction d with
  | nil => simp [dict.floats_all]
  | cons e rest ih =>
    obtain ⟨k, v⟩ := e
    simp [dict.floats_all, ih]

theorem details.dict_vector_floats_all_iff (ok : cfloat → Bool) (l : List dict) :
    details.dict_vector_floats_all ok l = true ↔ ∀ d ∈ l, dict.floats_all ok d = true := by
  induction l with
  | nil => simp [details.dict_vector_floats_all]
  | cons d rest ih => simp [details.dict_vector_floats_all, ih]

/-- The comparison of the variant is ordered at a value of one alternative
when the comparison of the contents of this alternative is. -/
theorem variant_ordered (fc : float_order) (ok : cfloat → Bool) {γ : Type}
    (C : γ → mapped_type) (Sc : γ → Prop) (lessc equalc : γ → γ → Bool) (c : γ)
    (hinv : ∀ y : mapped_type, y.kind_of.index = (C c).kind_of.index → ∃ a, y = C a)
    (hless : ∀ a b, mapped_type.less fc (C a) (C b) = lessc a b)
    (hequal : ∀ a b, mapped_type.equal fc (C a) (C b) = equalc a b)
    (hS : ∀ a, mapped_type.floats_all ok (C a) = true → Sc a)
    (hc : ordered_at Sc lessc equalc c) :
    ordered_at (fun v => mapped_type.floats_all ok v = true) (mapped_type.less fc)
      (mapped_type.equal fc) (C c) := by
  apply tagged_ordered _ _ _ (fun v => v.kind_of.index)
    (mapped_type.less_of_kind_ne fc) (mapped_type.equal_of_kind_ne fc)
  intro y z hy hz hty htz
  obtain ⟨a, rfl⟩ := hinv y hty
  obtain ⟨b, rfl⟩ := hinv z htz
  simp only [hless, hequal]
  exact hc a b (hS a hy) (hS b hz)

mutual
theorem mapped_type.value_ordered (fc : float_order) (ok : cfloat → Bool)
    (hfc : ∀ x, ok x = true → ordered_at (fun y => ok y = true) fc.less fc.equal x)
    (v : mapped_type) (hv : mapped_type.floats_all ok v = true) :
    ordered_at (fun v => mapped_type.floats_all ok v = true) (mapped_type.less fc)
      (mapped_type.equal fc) v := by
  cases v with
  | Float x =>
    exact variant_ordered fc ok .Float (fun y => ok y = true) fc.less fc.equal x
      (by intro y h; cases y <;> first | exact ⟨_, rfl⟩ | simp [mapped_type.kind_of, kind.index] at h)
      (fun _ _ => rfl) (fun _ _ => rfl) (fun _ h => h) (hfc x hv)
  | Int x =>
    exact variant_ordered fc ok .Int (fun _ => True) int_less (fun a b => decide (a = b)) x
      (by intro y h; cases y <;> first | exact ⟨_, rfl⟩ | simp [mapped_type.kind_of, kind.index] at h)
      (fun _ _ => rfl) (fun _ _ => rfl) (fun _ _ => trivial) (int_ordered x)
  | String x =>
    exact variant_ordered fc ok .String (fun _ => True) string_less
      (fun a b => decide (a = b)) x
      (by intro y h; cases y <;> first | exact ⟨_, rfl⟩ | simp [mapped_type.kind_of, kind.index] at h)
      (fun _ _ => rfl) (fun _ _ => rfl) (fun _ _ => trivial) (string_ordered x)
  | ListInt x =>
    exact variant_ordered fc ok .ListInt (fun _ => True) (lexicographical_compare int_less)
      (fun a b => decide (a = b)) x
      (by intro y h; cases y <;> first | exact ⟨_, rfl⟩ | simp [mapped_type.kind_of, kind.index] at h)
      (fun _ _ => rfl) (fun _ _ => rfl) (fun _ _ => trivial) (list_ordered int_less int_ordered x)
  | ListFloat x =>
    exact variant_ordered fc ok .ListFloat (fun l => ∀ a ∈ l, ok a = true)
      (lexicographical_compare fc.less) (sequence_equal fc.equal) x
      (by intro y h; cases y <;> first | exact ⟨_, rfl⟩ | simp [mapped_type.kind_of, kind.index] at h)
      (fun _ _ => rfl) (fun _ _ => rfl)
      (fun a h => by simpa [mapped_type.floats_all] using h)
      (ordered_at_list _ _ _ x (fun a ha => hfc a
        ((by simpa [mapped_type.floats_all] using hv : ∀ a ∈ x, ok a = true) a ha)))
  | ListString x =>
    exact variant_ordered fc ok .ListString (fun _ => True)
      (lexicographical_compare string_less) (fun a b => decide (a = b)) x
      (by intro y h; cases y <;> first | exact ⟨_, rfl⟩ | simp [mapped_type.kind_of, kind.index] at h)
      (fun _ _ => rfl) (fun _ _ => rfl) (fun _ _ => trivial)
      (list_ordered string_less string_ordered x)
  | ListBool x =>
    exact variant_ordered fc ok .ListBool (fun _ => True) (lexicographical_compare bool_less)
      (fun a b => decide (a = b)) x
      (by intro y h; cases y <;> first | exact ⟨_, rfl⟩ | simp [mapped_type.kind_of, kind.index] at h)
      (fun _ _ => rfl) (fun _ _ => rfl) (fun _ _ => trivial)
      (list_ordered bool_less bool_ordered x)
  | NestedDict d =>
    exact variant_ordered fc ok .NestedDict (fun d => dict.floats_all ok d = true)
      (dict.less fc) (dict.equal fc) d
      (by intro y h; cases y <;> first | exact ⟨_, rfl⟩ | simp [mapped_type.kind_of, kind.index] at h)
      (fun _ _ => rfl) (fun _ _ => rfl) (fun _ h => h)
      (dict.dict_ordered fc ok hfc d hv)
  | ListOfNestedDict l =>
    exact variant_ordered fc ok .ListOfNestedDict
      (fun l => details.dict_vector_floats_all ok l = true)
      (fun a b => (details.dict_vector_less_both fc a b).1) (details.dict_vector_equal fc) l
      (by intro y h; cases y <;> first | exact ⟨_, rfl⟩ | simp [mapped_type.kind_of, kind.index] at h)
      (fun _ _ => rfl) (fun _ _ => rfl) (fun _ h => h)
      (details.dict_vector_ordered fc ok hfc l hv)
theorem dict.dict_ordered (fc : float_order) (ok : cfloat → Bool)
    (hfc : ∀ x, ok x = true → ordered_at (fun y => ok y = true) fc.less fc.equal x)
    (d : List (cstring × mapped_type)) (hd : dict.floats_all ok d = true) :
    ordered_at (fun d => dict.floats_all ok d = true) (dict.less fc) (dict.equal fc) d := by
  have to_dict : ∀ l : dict,
      ordered_at (fun l : List value_type => ∀ e ∈ l, mapped_type.floats_all ok e.2 = true)
        (lexicographical_compare (value_type.less fc)) (sequence_equal (value_type.equal fc)) l →
      ordered_at (fun d => dict.floats_all ok d = true) (dict.less fc) (dict.equal fc) l :=
    fun l h => ordered_at_congr _ _ _ _ _ _ l (fun a ha => (dict.floats_all_iff ok a).1 ha)
      (dict.less_eq_lexicographical fc) (dict.equal_eq_sequence_equal fc) h
  cases d with
  | nil => exact to_dict [] (ordered_at_nil _ _ _)
  | cons e rest =>
    obtain ⟨k, v⟩ := e
    have hvr : mapped_type.floats_all ok v = true ∧ dict.floats_all ok rest = true := by
      simpa [dict.floats_all] using hd
    have hrest := dict.dict_ordered fc ok hfc rest hvr.2
    have hv := mapped_type.value_ordered fc ok hfc v hvr.1
    apply to_dict
    apply ordered_at_cons
    · exact pair_ordered _ _ _ k v hv
    · exact ordered_at_congr _ _ _ _ _ _ rest (fun a ha => (dict.floats_all_iff ok a).2 ha)
        (fun a b => (dict.less_eq_lexicographical fc a b).symm)
        (fun a b => (dict.equal_eq_sequence_equal fc a b).symm) hrest
theorem details.dict_vector_ordered (fc : float_order) (ok : cfloat → Bool)
    (hfc : ∀ x, ok x = true → ordered_at (fun y => ok y = true) fc.less fc.equal x)
    (l : List (List (cstring × mapped_type)))
    (hl : details.dict_vector_floats_all ok l = true) :
    ordered_at (fun l => details.dict_vector_floats_all ok l = true)
      (fun a b => (details.dict_vector_less_both fc a b).1) (details.dict_vector_equal fc) l := by
  have to_vector : ∀ l : List dict,
      ordered_at (fun l : List dict => ∀ d ∈ l, dict.floats_all ok d = true)
        (lexicographical_compare (dict.less fc)) (sequence_equal (dict.equal fc)) l →
      ordered_at (fun l => details.dict_vector_floats_all ok l = true)
        (fun a b => (details.dict_vector_less_both fc a b).1)
        (details.dict_vector_equal fc) l :=
    fun l h => ordered_at_congr _ _ _ _ _ _ l
      (fun a ha => (details.dict_vector_floats_all_iff ok a).1 ha)
      (details.dict_vector_less_eq_lexicographical fc)
      (details.dict_vector_equal_eq_sequence_equal fc) h
  cases l with
  | nil => exact to_vector [] (ordered_at_nil _ _ _)
  | cons d rest =>
    have hdr : dict.floats_all ok d = true ∧ details.dict_vector_floats_all ok rest = true := by
      simpa [details.dict_vector_floats_all] using hl
    have hrest := details.dict_vector_ordered fc ok hfc rest hdr.2
    have hd := dict.dict_ordered fc ok hfc d hdr.1
    apply to_vector
    apply ordered_at_cons
    · exact hd
    · exact ordered_at_congr _ _ _ _ _ _ rest
        (fun a ha => (details.dict_vector_floats_all_iff ok a).2 ha)
        (fun a b => (details.dict_vector_less_eq_lexicographical fc a b).symm)
        (fun a b => (details.dict_vector_equal_eq_sequence_equal fc a b).symm) hrest
end

theorem float_order.ieee_ordered (x : cfloat) (hx : (!x.is_nan) = true) :
    ordered_at (fun y : cfloat => (!y.is_nan) = true) float_order.ieee.less
      float_order.ieee.equal x := by
  apply ordered_at_of_key _ _ _ cfloat.sort_key _ _ x hx
  · intro a b ha hb
    simp only [Bool.not_eq_true'] at ha hb
    simp [float_order.ieee, ha, hb]
  · intro a b ha hb
    simp only [Bool.not_eq_true'] at ha hb
    simp [float_order.ieee, ha, hb]

theorem float_order.ieee_consistent (x y : cfloat) (h : float_order.ieee.equal x y = true) :
    float_order.ieee.less x y = false ∧ float_order.ieee.less y x = false := by
  simp only [float_order.ieee, Bool.and_eq_true, Bool.not_eq_true', decide_eq_true_eq] at h
  obtain ⟨⟨hx, hy⟩, hk⟩ := h
  simp [float_order.ieee, hx, hy, hk]

/-- On the dictionaries whose floats are ordered by the comparison of floats,
`operator<` is irreflexive and transitive and exactly one of `a < b`,
`a == b`, `b < a` holds. -/
theorem dict.less_strict_total (fc : float_order) (ok : cfloat → Bool)
    (hfc : ∀ x, ok x = true → ordered_at (fun y => ok y = true) fc.less fc.equal x)
    (a b c : dict) (ha : dict.floats_all ok a = true) (hb : dict.floats_all ok b = true)
    (hc : dict.floats_all ok c = true) :
    dict.less fc a a = false ∧
    (dict.less fc a b = true → dict.less fc b c = true → dict.less fc a c = true) ∧
    (dict.less fc a b = true ∨ dict.equal fc a b = true ∨ dict.less fc b a = true) ∧
    ¬ (dict.less fc a b = true ∧ dict.equal fc a b = true) ∧
    ¬ (dict.less fc a b = true ∧ dict.less fc b a = true) ∧
    ¬ (dict.equal fc a b = true ∧ dict.less fc b a = true) := by
  have oa := dict.dict_ordered fc ok hfc a ha
  have ob := dict.dict_ordered fc ok hfc b hb
  obtain ⟨Aaa, -, -, -, -⟩ := oa a a ha ha
  obtain ⟨Aab, Eab, -, -, -⟩ := oa b b hb hb
  obtain ⟨-, -, Cacb, -, -⟩ := oa c b hc hb
  obtain ⟨Abc, -, -, -, -⟩ := ob c c hc hc
  refine ⟨?_, ?_, ?_, ?_, ?_, ?_⟩
  · cases h : dict.less fc a a with
    | false => rfl
    | true => exact absurd h (Aaa h)
  · intro h1 h2
    rcases Cacb h1 with h3 | h3
    · exact h3
    · exact absurd h3 (Abc h2)
  · by_cases h1 : dict.less fc a b = true
    · exact Or.inl h1
    · by_cases h2 : dict.less fc b a = true
      · exact Or.inr (Or.inr h2)
      · exact Or.inr (Or.inl (Eab.2 ⟨h1, h2⟩))
  · rintro ⟨h1, h2⟩; exact (Eab.1 h2).1 h1
  · rintro ⟨h1, h2⟩; exact Aab h1 h2
  · rintro ⟨h1, h2⟩; exact (Eab.1 h1).2 h2

/-! ### Equal values are not less than each other -/

theorem not_less_of_sequence_equal {α : Type} (less equal : α → α → Bool)
    (h : ∀ a b, equal a b = true → less a b = false ∧ less b a = false) (x y : List α)
    (he : sequence_equal equal x y = true) :
    lexicographical_compare less x y = false ∧ lexicographical_compare less y x = false := by
  induction x generalizing y with
  | nil => cases y <;> simp_all [sequence_equal, lexicographical_compare]
  | cons a x ih =>
    cases y with
    | nil => simp [sequence_equal] at he
    | cons b y =>
      rw [sequence_equal_cons] at he
      obtain ⟨h1, h2⟩ := h a b he.1
      obtain ⟨h3, h4⟩ := ih y he.2
      simp [lexicographical_compare, h1, h2, h3, h4]

theorem string_less_irrefl (k : cstring) : string_less k k = false := by
  cases h : string_less k k with
  | false => rfl
  | true => exact absurd h ((string_ordered k k k trivial trivial).1 h)

theorem lexicographical_compare_irrefl {α : Type} [DecidableEq α] (less : α → α → Bool)
    (h : ∀ x, ordered_at (fun _ => True) less (fun a b => decide (a = b)) x) (l : List α) :
    lexicographical_compare less l l = false := by
  cases hl : lexicographical_compare less l l with
  | false => rfl
  | true => exact absurd hl ((list_ordered less h l l l trivial trivial).1 hl)

mutual
theorem mapped_type.value_not_less_of_equal (fc : float_order)
    (hfc : ∀ x y, fc.equal x y = true → fc.less x y = false ∧ fc.less y x = false)
    (a b : mapped_type) (h : mapped_type.equal fc a b = true) :
    mapped_type.less_both fc a b = (false, false) := by
  cases a with
  | Float x =>
    cases b with
    | Float y =>
      obtain ⟨h1, h2⟩ := hfc x y h
      simp [mapped_type.less_both, h1, h2]
    | _ => simp [mapped_type.equal] at h
  | Int x =>
    cases b with
    | Int y =>
      have : x = y := by simpa [mapped_type.equal] using h
      subst this
      simp [mapped_type.less_both, int_less]
    | _ => simp [mapped_type.equal] at h
  | String x =>
    cases b with
    | String y =>
      have : x = y := by simpa [mapped_type.equal] using h
      subst this
      simp [mapped_type.less_both, string_less_irrefl]
    | _ => simp [mapped_type.equal] at h
  | ListInt x =>
    cases b with
    | ListInt y =>
      have : x = y := by simpa [mapped_type.equal] using h
      subst this
      simp [mapped_type.less_both, lexicographical_compare_irrefl int_less int_ordered]
    | _ => simp [mapped_type.equal] at h
  | ListFloat x =>
    cases b with
    | ListFloat y =>
      obtain ⟨h1, h2⟩ := not_less_of_sequence_equal fc.less fc.equal hfc x y h
      simp [mapped_type.less_both, h1, h2]
    | _ => simp [mapped_type.equal] at h
  | ListString x =>
    cases b with
    | ListString y =>
      have : x = y := by simpa [mapped_type.equal] using h
      subst this
      simp [mapped_type.less_both, lexicographical_compare_irrefl string_less string_ordered]
    | _ => simp [mapped_type.equal] at h
  | ListBool x =>
    cases b with
    | ListBool y =>
      have : x = y := by simpa [mapped_type.equal] using h
      subst this
      simp [mapped_type.less_both, lexicographical_compare_irrefl bool_less bool_ordered]
    | _ => simp [mapped_type.equal] at h
  | NestedDict x =>
    cases b with
    | NestedDict y =>
      simp only [mapped_type.less_both]
      exact dict.not_less_of_equal fc hfc x y h
    | _ => simp [mapped_type.equal] at h
  | ListOfNestedDict x =>
    cases b with
    | ListOfNestedDict y =>
      simp only [mapped_type.less_both]
      exact details.dict_vector_not_less_of_equal fc hfc x y h
    | _ => simp [mapped_type.equal] at h
theorem dict.not_less_of_equal (fc : float_order)
    (hfc : ∀ x y, fc.equal x y = true → fc.less x y = false ∧ fc.less y x = false)
    (a b : List (cstring × mapped_type)) (h : dict.equal fc a b = true) :
    dict.less_both fc a b = (false, false) := by
  cases a with
  | nil => cases b <;> simp_all [dict.equal, dict.less_both]
  | cons e1 r1 =>
    cases b with
    | nil => simp [dict.equal] at h
    | cons e2 r2 =>
      obtain ⟨k1, v1⟩ := e1
      obtain ⟨k2, v2⟩ := e2
      simp only [dict.equal, Bool.and_eq_true, decide_eq_true_eq] at h
      obtain ⟨⟨hk, hv⟩, hr⟩ := h
      subst hk
      have h1 := mapped_type.value_not_less_of_equal fc hfc v1 v2 hv
      have h2 := dict.not_less_of_equal fc hfc r1 r2 hr
      simp [dict.less_both, h1, h2, string_less_irrefl]
theorem details.dict_vector_not_less_of_equal (fc : float_order)
    (hfc : ∀ x y, fc.equal x y = true → fc.less x y = false ∧ fc.less y x = false)
    (a b : List (List (cstring × mapped_type)))
    (h : details.dict_vector_equal fc a b = true) :
    details.dict_vector_less_both fc a b = (false, false) := by
  cases a with
  | nil => cases b <;> simp_all [details.dict_vector_equal, details.dict_vector_less_both]
  | cons x xs =>
    cases b with
    | nil => simp [details.dict_vector_equal] at h
    | cons y ys =>
      simp only [details.dict_vector_equal, Bool.and_eq_true] at h
      have h1 := dict.not_less_of_equal fc hfc x y h.1
      have h2 := details.dict_vector_not_less_of_equal fc hfc xs ys h.2
      simp [details.dict_vector_less_both, h1, h2]
end

theorem dict.less_after_equal_elements (fc : float_order)
    (hfc : ∀ x y, fc.equal x y = true → fc.less x y = false ∧ fc.less y x = false)
    (ea eb : value_type) (ra rb : dict) (hlt : value_type.less fc ea eb = true) :
    ∀ pa pb : dict, dict.equal fc pa pb = true →
      dict.less fc (pa ++ ea :: ra) (pb ++ eb :: rb) = true := by
  intro pa
  induction pa with
  | nil =>
    intro pb h
    cases pb with
    | nil =>
      rw [dict.less_eq_lexicographical]
      simp [lexicographical_compare, hlt]
    | cons e2 r2 => simp [dict.equal] at h
  | cons e1 r1 ih =>
    intro pb h
    cases pb with
    | nil => simp [dict.equal] at h
    | cons e2 r2 =>
      obtain ⟨k1, v1⟩ := e1
      obtain ⟨k2, v2⟩ := e2
      simp only [dict.equal, Bool.and_eq_true, decide_eq_true_eq] at h
      obtain ⟨⟨hk, hv⟩, hr⟩ := h
      subst hk
      have h1 := mapped_type.value_not_less_of_equal fc hfc v1 v2 hv
      have h2 := ih r2 hr
      simp only [dict.less] at h2
      simp [dict.less, dict.less_both, h1, h2, string_less_irrefl]

/-- C13 as stated fails for dictionaries that hold a NaN: with the IEEE comparison
of floats, a dictionary holding a NaN is neither less than nor equal to
itself, and of three dictionaries that differ in the first value, 1, NaN
and 0, the first is less than the second and the second less than the
third, but the first is not less than the third. -/
theorem less_with_nan_is_not_total :
    dict.less float_order.ieee [(['k'], .Float ⟨0x7fc00000⟩)] [(['k'], .Float ⟨0x7fc00000⟩)]
      = false ∧
    dict.equal float_order.ieee [(['k'], .Float ⟨0x7fc00000⟩)] [(['k'], .Float ⟨0x7fc00000⟩)]
      = false ∧
    dict.less float_order.ieee [(['p'], .Float ⟨0x3f800000⟩), (['q'], .Int 1)]
      [(['p'], .Float ⟨0x7fc00000⟩), (['q'], .Int 2)] = true ∧
    dict.less float_order.ieee [(['p'], .Float ⟨0x7fc00000⟩), (['q'], .Int 2)]
      [(['p'], .Float ⟨0⟩), (['q'], .Int 3)] = true ∧
    dict.less float_order.ieee [(['p'], .Float ⟨0x3f800000⟩), (['q'], .Int 1)]
      [(['p'], .Float ⟨0⟩), (['q'], .Int 3)] = false := by
  decide

/-- C13, amended. On the dictionaries that hold no NaN, at any depth, `operator<` is
a strict total order consistent with `operator==`: it is irreflexive and
transitive, and exactly one of `a < b`, `a == b`, `b < a` holds. -/
theorem less_is_strict_total_without_nan (a b c : dict) (ha : dict.nan_free a = true)
    (hb : dict.nan_free b = true) (hc : dict.nan_free c = true) :
    dict.less float_order.ieee a a = false ∧
    (dict.less float_order.ieee a b = true → dict.less float_order.ieee b c = true →
      dict.less float_order.ieee a c = true) ∧
    (dict.less float_order.ieee a b = true ∨ dict.equal float_order.ieee a b = true ∨
      dict.less float_order.ieee b a = true) ∧
    ¬ (dict.less float_order.ieee a b = true ∧ dict.equal float_order.ieee a b = true) ∧
    ¬ (dict.less float_order.ieee a b = true ∧ dict.less float_order.ieee b a = true) ∧
    ¬ (dict.equal float_order.ieee a b = true ∧ dict.less float_order.ieee b a = true) :=
  dict.less_strict_total float_order.ieee (fun x => !x.is_nan) float_order.ieee_ordered
    a b c ha hb hc

/-- Witness of C13: the dictionaries `a`, `b`, `c` of the specification, which hold 1, 2
and 3 under `v`. -/
theorem less_is_strict_total_without_nan_witness :
    dict.nan_free [(['v'], .Int 1)] = true ∧
    dict.less float_order.ieee [(['v'], .Int 1)] [(['v'], .Int 2)] = true ∧
    dict.less float_order.ieee [(['v'], .Int 2)] [(['v'], .Int 3)] = true ∧
    dict.less float_order.ieee [(['v'], .Int 1)] [(['v'], .Int 3)] = true :=
  ⟨by decide, by decide, by decide,
    (less_is_strict_total_without_nan [(['v'], .Int 1)] [(['v'], .Int 2)] [(['v'], .Int 3)]
      (by decide) (by decide) (by decide)).2.1 (by decide) (by decide)⟩

/-- C14. The comparison of dictionaries is lexicographic: when `a` and `b` begin with
pairwise equal elements, followed by `(k, x)` in `a` and `(k, y)` in `b`
for two `int` with `x < y`, then `a < b`, whatever follows in `a` and in
`b`. -/
theorem less_is_lexicographic (before_a before_b after_a after_b : dict) (k : key_type)
    (x y : Int) (hbefore : dict.equal float_order.ieee before_a before_b = true)
    (hxy : x < y) :
    dict.less float_order.ieee (before_a ++ (k, .Int x) :: after_a)
      (before_b ++ (k, .Int y) :: after_b) = true := by
  apply dict.less_after_equal_elements float_order.ieee float_order.ieee_consistent _ _ _ _ _
    before_a before_b hbefore
  simp [value_type.less, mapped_type.less, mapped_type.less_both, int_less, hxy,
    string_less_irrefl]

/-- Witness of C14: the dictionaries of `main.cpp`, `{v: 1, b: ...}` less than
`{v: 2, c: ...}`, less than `{v: 3}`, and two dictionaries that differ after
an equal first element. -/
theorem less_is_lexicographic_witness :
    dict.less float_order.ieee
      [(['v'], .Int 1), (['b'], .NestedDict [(['v'], .Int 2), (['c'], .NestedDict [(['v'], .Int 3)])])]
      [(['v'], .Int 2), (['c'], .NestedDict [(['v'], .Int 3)])] = true ∧
    dict.less float_order.ieee [(['v'], .Int 2), (['c'], .NestedDict [(['v'], .Int 3)])]
      [(['v'], .Int 3)] = true ∧
    dict.less float_order.ieee [(['s'], .String ['x']), (['v'], .Int 1), (['z'], .Int 9)]
      [(['s'], .String ['x']), (['v'], .Int 2)] = true :=
  ⟨less_is_lexicographic [] []
      [(['b'], .NestedDict [(['v'], .Int 2), (['c'], .NestedDict [(['v'], .Int 3)])])]
      [(['c'], .NestedDict [(['v'], .Int 3)])] ['v'] 1 2 rfl (by decide),
    less_is_lexicographic [] [] [(['c'], .NestedDict [(['v'], .Int 3)])] [] ['v'] 2 3 rfl
      (by decide),
    less_is_lexicographic [(['s'], .String ['x'])] [(['s'], .String ['x'])] [(['z'], .Int 9)] []
      ['v'] 1 2 (by decide) (by decide)⟩

/-- C15. The comparison of values orders by kind first: for two values `x` and `y` of
different kinds, the kind of `x` before the kind of `y` in the order of
the variant, the dictionary `{k: x}` is less than `{k: y}`, and `{k: y}` is
not less than `{k: x}`, whatever `x` and `y` hold. -/
theorem less_orders_by_kind_first (fc : float_order) (k : key_type) (x y : mapped_type)
    (h : x.kind_of.index < y.kind_of.index) :
    dict.less fc [(k, x)] [(k, y)] = true ∧ dict.less fc [(k, y)] [(k, x)] = false := by
  have h1 : mapped_type.less fc x y = true :=
    (mapped_type.less_of_kind_ne fc x y (by omega)).2 h
  have h2 : mapped_type.less fc y x = false := by
    cases h3 : mapped_type.less fc y x with
    | false => rfl
    | true =>
      have := (mapped_type.less_of_kind_ne fc y x (by omega)).1 h3
      omega
  simp only [dict.less_eq_lexicographical]
  simp [lexicographical_compare, value_type.less, h1, h2, string_less_irrefl]

/-- Witness of C15: the `int` 5 before the empty string, and a string before the empty
list of `int`. -/
theorem less_orders_by_kind_first_witness :
    dict.less float_order.ieee [(['k'], .Int 5)] [(['k'], .String [])] = true ∧
    dict.less float_order.ieee [(['k'], .String ['z'])] [(['k'], .ListInt [])] = true :=
  ⟨(less_orders_by_kind_first float_order.ieee ['k'] (.Int 5) (.String []) (by decide)).1,
    (less_orders_by_kind_first float_order.ieee ['k'] (.String ['z']) (.ListInt [])
      (by decide)).1⟩

/-! ### The offsets of the splitting loop -/

theorem dict.split_loop_offsets_le (key : cstring) :
    ∀ (fuel offset : Nat) (pos : Option Nat), (∀ p, pos = some p → offset ≤ key.length) →
      ∀ o ∈ dict.split_loop_offsets key fuel offset pos, o ≤ key.length := by
  intro fuel
  induction fuel with
  | zero =>
    intro offset pos _ o ho
    cases pos <;> simp [dict.split_loop_offsets] at ho
  | succ fuel ih =>
    intro offset pos hpos o ho
    cases pos with
    | none => simp [dict.split_loop_offsets] at ho
    | some p =>
      have hle := hpos p rfl
      have hs : cstring.substr key offset p = some ((key.drop offset).take p) := by
        simp [cstring.substr, Nat.not_lt.2 hle]
      simp only [dict.split_loop_offsets, hs, List.mem_cons] at ho
      rcases ho with ho | ho
      · rw [ho]; exact hle
      · apply ih _ _ _ o ho
        intro p2 hp2
        have hb := cstring.find_bounds key delimiter _ p2 hp2
        have hd : delimiter.length = 2 := rfl
        rw [hd] at hb
        omega

theorem dict.split_loop_length (key : cstring) :
    ∀ (fuel offset : Nat) (pos : Option Nat) (keys ks : List cstring),
      dict.split_loop key fuel offset pos keys = .ok ks →
      ks.length = keys.length + (dict.split_loop_offsets key fuel offset pos).length := by
  intro fuel
  induction fuel with
  | zero =>
    intro offset pos keys ks h
    cases pos with
    | none =>
      rw [dict.split_loop_done] at h
      cases h
      simp [dict.split_loop_offsets]
    | some p => simp [dict.split_loop] at h
  | succ fuel ih =>
    intro offset pos keys ks h
    cases pos with
    | none =>
      rw [dict.split_loop_done] at h
      cases h
      simp [dict.split_loop_offsets]
    | some p =>
      cases hs : cstring.substr key offset p with
      | none => simp [dict.split_loop, hs] at h
      | some segment =>
        rw [dict.split_loop_step key fuel offset p keys segment _ hs rfl] at h
        have := ih _ _ _ _ h
        simp only [dict.split_loop_offsets, hs, List.length_cons, List.length_append,
          List.length_nil] at this ⊢
        omega

/-- The method `get_recursive` returns for every path: no call of `substr` throws
and the walk stays inside `keys`. -/
theorem dict.get_recursive_total (fo : float_ops) (d : dict) (path : key_type)
    (out : mapped_type) : ∃ r, dict.get_recursive fo d path out = .ok r := by
  by_cases h : delimiter <:+: path
  · obtain ⟨p, hfind⟩ := cstring.find_of_infix path delimiter h
    have hspec := cstring.find_spec path delimiter p hfind
    obtain ⟨rest, hsplit⟩ := dict.split_of_first path p hspec.1 hspec.2
    exact dict.get_recursive_of_two_keys fo d path out _ _ _ hsplit
  · have hf := cstring.find_eq_none path delimiter 0 h
    exact ⟨dict.get fo d path out, by
      simp only [dict.get_recursive, dict.split, hf, dict.split_loop_done]⟩

/-- C21. For every path, every offset that the splitting loop of `get_recursive`
passes to `substr` is at most the length of the path; the loop ends with
one key for each of these calls, and `get_recursive` returns: the
`std::out_of_range` of `substr` is not reached. -/
theorem substr_offsets_within_path (path : key_type) :
    (∀ o ∈ dict.split_offsets path, o ≤ path.length) ∧
    (∃ keys, dict.split path = .ok keys ∧ keys.length = (dict.split_offsets path).length) ∧
    ∀ (fo : float_ops) (d : dict) (out : mapped_type),
      dict.get_recursive fo d path out ≠ .error fault.out_of_range ∧
      ∃ r, dict.get_recursive fo d path out = .ok r := by
  refine ⟨?_, ?_, ?_⟩
  · exact dict.split_loop_offsets_le path _ 0 _ (fun _ _ => Nat.zero_le _)
  · obtain ⟨keys, hk⟩ := dict.split_total path
    refine ⟨keys, hk, ?_⟩
    have := dict.split_loop_length path _ _ _ _ _ hk
    simpa [dict.split_offsets] using this
  · intro fo d out
    obtain ⟨r, hr⟩ := dict.get_recursive_total fo d path out
    exact ⟨by rw [hr]; simp, r, hr⟩

/-- C22. The method `get` into a string appends: for a key that the dictionary holds
and a string `s` in the output, `get` returns true and leaves `s` followed
by the rendering of the key's value, which is the rendering alone only
when `s` is empty. -/
theorem get_into_string_appends (fo : float_ops) (d : dict) (k : key_type) (s : cstring)
    (hk : dict.count d k ≠ 0) :
    ∃ v, dict.find_second d k = some v ∧
      dict.get fo d k (.String s) = (true, .String (s ++ details.appended fo v)) ∧
      dict.get fo d k (.String []) = (true, .String (details.appended fo v)) ∧
      ((dict.get fo d k (.String s)).2 = .String (details.appended fo v) ↔ s = []) := by
  obtain ⟨v, hv⟩ := dict.find_second_of_mem d k ((dict.count_ne_zero_iff d k).1 hk)
  have hget : ∀ t, dict.get fo d k (.String t) = (true, .String (t ++ details.appended fo v)) := by
    intro t
    rw [dict.get_of_find_second fo d k _ v hv]
    simp [details.get_visitor]
  refine ⟨v, hv, hget s, by simpa using hget [], ?_⟩
  rw [hget s]
  constructor
  · intro h
    have h2 : s ++ details.appended fo v = details.appended fo v := by
      injection h
    exact List.append_left_eq_self.1 h2
  · intro h
    rw [h]
    rfl

/-- Witness of C22: the string `xy` read into an output that holds `ab`. -/
theorem get_into_string_appends_witness :
    dict.count [(['k'], .String ['x', 'y'])] ['k'] ≠ 0 ∧
    ∃ v, dict.find_second [(['k'], .String ['x', 'y'])] ['k'] = some v ∧
      dict.get float_ops.whole [(['k'], .String ['x', 'y'])] ['k'] (.String ['a', 'b'])
        = (true, .String (['a', 'b'] ++ details.appended float_ops.whole v)) ∧
      dict.get float_ops.whole [(['k'], .String ['x', 'y'])] ['k'] (.String [])
        = (true, .String (details.appended float_ops.whole v)) ∧
      ((dict.get float_ops.whole [(['k'], .String ['x', 'y'])] ['k'] (.String ['a', 'b'])).2
        = .String (details.appended float_ops.whole v) ↔ ['a', 'b'] = []) :=
  ⟨by decide,
    get_into_string_appends float_ops.whole [(['k'], .String ['x', 'y'])] ['k'] ['a', 'b']
      (by decide)⟩

/-! ### Failed reads -/

theorem dict.get_of_false (fo : float_ops) (d : dict) (key : key_type) (value : mapped_type)
    (h : (dict.get fo d key value).1 = false) : dict.get fo d key value = (false, value) := by
  by_cases hc : dict.count d key = 0
  · exact dict.get_of_count_eq_zero fo d key value hc
  · obtain ⟨v, hv⟩ := dict.find_second_of_mem d key ((dict.count_ne_zero_iff d key).1 hc)
    rw [dict.get_of_find_second fo d key value v hv] at h ⊢
    exact details.get_visitor_false fo value v h

theorem dict.get_recursive_of_false (fo : float_ops) (d : dict) (path : key_type)
    (value : mapped_type) (r : Bool × mapped_type)
    (h : dict.get_recursive fo d path value = .ok r) (hr : r.1 = false) : r.2 = value := by
  unfold dict.get_recursive at h
  cases hs : dict.split path with
  | error e => simp [hs] at h
  | ok keys =>
    cases keys with
    | nil =>
      simp only [hs, Except.ok.injEq] at h
      subst h
      rw [dict.get_of_false fo d path value hr]
    | cons first rest =>
      simp only [hs] at h
      cases hg : dict.get_dict fo d first dict.empty with
      | mk b temp =>
        cases b with
        | false =>
          simp only [hg, Except.ok.injEq] at h
          subst h
          rfl
        | true =>
          simp only [hg] at h
          cases hl : rest.getLast? with
          | none => simp [hl] at h
          | some back =>
            simp only [hl] at h
            cases hw : dict.walk fo temp rest.dropLast with
            | none =>
              simp only [hw, Except.ok.injEq] at h
              subst h
              rfl
            | some inner =>
              simp only [hw, Except.ok.injEq] at h
              subst h
              rw [dict.get_of_false fo inner back value hr]

/-- C23. A failed read changes nothing: when `get(p, out)` or `get_recursive(p, out)`
returns false, `out` holds the value it held before the call (both are
`const` member functions: the dictionary is an argument that they do not
return); and `get(key)` returns the stored dictionary when the key holds a
`NestedDict`, the empty dictionary in every other case. -/
theorem failed_read_changes_nothing (fo : float_ops) (d : dict) (p : key_type)
    (out : mapped_type) :
    ((dict.get fo d p out).1 = false → (dict.get fo d p out).2 = out) ∧
    (∀ r, dict.get_recursive fo d p out = .ok r → r.1 = false → r.2 = out) ∧
    (∀ n, dict.find_second d p = some (.NestedDict n) → dict.get_by_value fo d p = n) ∧
    ((∀ n, dict.find_second d p ≠ some (.NestedDict n)) →
      dict.get_by_value fo d p = dict.empty) := by
  refine ⟨?_, ?_, ?_, ?_⟩
  · intro h
    rw [dict.get_of_false fo d p out h]
  · intro r h hr
    exact dict.get_recursive_of_false fo d p out r h hr
  · intro n hn
    rw [dict.get_by_value, dict.get_dict_eq, hn]
  · intro hn
    rw [dict.get_by_value, dict.get_dict_eq]
    cases hf : dict.find_second d p with
    | none => rfl
    | some v =>
      cases v with
      | NestedDict n => exact absurd hf (hn n)
      | _ => rfl

/-- Witness of C23: the failed reads of `main.cpp`, of a string into a number and of a
key that the dictionary does not hold, and a path whose second key is
missing. -/
theorem failed_read_changes_nothing_witness :
    dict.get float_ops.whole [(['s'], .String ['s'])] ['s'] (.Float ⟨7⟩) = (false, .Float ⟨7⟩) ∧
    dict.get_recursive float_ops.whole [(['a'], .NestedDict [(['b'], .Int 1)])]
      ['a', ':', ':', 'c'] (.Int 7) = .ok (false, .Int 7) ∧
    dict.get_by_value float_ops.whole [(['s'], .String ['s'])] ['s'] = dict.empty ∧
    dict.get_by_value float_ops.whole [(['s'], .String ['s'])] ['x'] = dict.empty :=
  ⟨Prod.ext rfl
      ((failed_read_changes_nothing float_ops.whole [(['s'], .String ['s'])] ['s']
        (.Float ⟨7⟩)).1 rfl),
    rfl,
    (failed_read_changes_nothing float_ops.whole [(['s'], .String ['s'])] ['s'] (.Int 0)).2.2.2
      (by intro n h; cases h),
    (failed_read_changes_nothing float_ops.whole [(['s'], .String ['s'])] ['x'] (.Int 0)).2.2.2
      (by intro n h; cases h)⟩

/-- C24. The rendering is not injective: the dictionaries that hold the `int` 1 and
the string `1` under one key are different, also for `operator==`, and
have the same `str()`. -/
theorem str_is_not_injective :
    ∃ a b : dict, a ≠ b ∧ (∀ fc : float_order, dict.equal fc a b = false) ∧
      ∀ fo : float_ops, dict.str fo a = dict.str fo b :=
  ⟨[(['k'], .Int 1)], [(['k'], .String ['1'])], by simp, fun _ => rfl, fun _ => rfl⟩
